import Mathlib

/-!
Huffman coder (`src/huffman/huffman.cpp`).

A shallow embedding of the class `huffman_coder` and a verification of its
specified properties.

Modelling conventions.

* `std::string` is a `List Char`; the string literal `"0"` is `['0']`.
* `node *` is the inductive type `node`: `node.null` is `nullptr`, and
  `node.mk data cost left right` is a pointer to a heap cell with these four
  fields.
* `int` counters are natural numbers: signed overflow is undefined in C++, so
  the model covers sample texts shorter than `2^31` characters.
* `std::unordered_map<K, V>` is an association list without duplicate keys.
  `find`, `operator[]` and assignment through `operator[]` are modelled; the
  iteration order of the map is not fixed by the source and is a parameter.
* `std::priority_queue<node *, vector<node *>, compare>` is not part of the
  source file.  Its `push` and `top`/`pop` are parameters (`StdLib`), and
  `StdLib.Valid` states what the C++ standard promises about them relative to
  the comparator `compare` of the source.
* Executing `top()` on an empty queue has no defined behaviour; it is the
  fault `Fault.top_of_empty_queue`.
-/

namespace Huffman

/-! ## Data model -/

/-- Values of type `node *` (source lines 12-20). -/
inductive node where
  | null : node
  | mk (data : Char) (cost : Nat) (left : node) (right : node) : node
  deriving DecidableEq, Repr

/-- Field `n->cost` (0 for the null pointer, which the source never reads). -/
def node.cost : node → Nat
  | node.null => 0
  | node.mk _ c _ _ => c

/-- Field `n->data`. -/
def node.data : node → Char
  | node.null => '\x00'
  | node.mk d _ _ _ => d

/-- Field `n->left`. -/
def node.left : node → node
  | node.null => node.null
  | node.mk _ _ l _ => l

/-- Field `n->right`. -/
def node.right : node → node
  | node.null => node.null
  | node.mk _ _ _ r => r

/-- Test `!n` on a pointer. -/
def node.isNull : node → Bool
  | node.null => true
  | node.mk _ _ _ _ => false

/-- The constructor `node(char d, int c)` (line 19): both children null. -/
def node.new (d : Char) (c : Nat) : node := node.mk d c node.null node.null

/-- The comparator `compare::operator()` (lines 22-29). -/
def compare (a b : node) : Bool := decide (a.cost > b.cost)

/-! ## `std::unordered_map` -/

/-- An unordered map as an association list with pairwise distinct keys. -/
abbrev unordered_map (K V : Type) := List (K × V)

namespace unordered_map

variable {K V : Type} [DecidableEq K]

/-- The call `m.find(k)`: the mapped value, or `none` for `m.end()`. -/
def find (m : unordered_map K V) (k : K) : Option V :=
  match m with
  | [] => none
  | (k', v) :: rest => if k = k' then some v else find rest k

/-- The assignment `m[k] = v`. -/
def assign (m : unordered_map K V) (k : K) (v : V) : unordered_map K V :=
  match m with
  | [] => [(k, v)]
  | (k', v') :: rest => if k = k' then (k', v) :: rest else (k', v') :: assign rest k v

/-- The read `m[k]`: returns the mapped value; a missing key is first inserted
with the value-initialised `dflt`. -/
def subscript (m : unordered_map K V) (k : K) (dflt : V) : V × unordered_map K V :=
  match find m k with
  | some v => (v, m)
  | none => (dflt, assign m k dflt)

/-- The call `m.size()`. -/
def size (m : unordered_map K V) : Nat := m.length

end unordered_map

/-! ## The parts of the standard library the source leaves open -/

/-- The behaviour of the standard library that the source does not fix:
the iteration order of `freq_map` and the priority queue operations.  The
queue state is the list of its elements in the library's internal order. -/
structure StdLib where
  /-- The order in which `for (auto &entry : freq_map)` visits the entries. -/
  iterate : unordered_map Char Nat → List (Char × Nat)
  /-- The call `min_heap.push(n)`. -/
  push : node → List node → List node
  /-- The calls `min_heap.top()` followed by `min_heap.pop()`: the top
  element and the remaining queue; `none` on an empty queue. -/
  pop : List node → Option (node × List node)

/-- The reading `min_heap.top()` alone (line 99). -/
def StdLib.top (L : StdLib) (q : List node) : Option node := (L.pop q).map Prod.fst

/-- What the C++ standard guarantees: iteration visits every entry once,
`push` adds one element, `top` is an element that `compare` does not rank
below any other, and `pop` removes it.  Which of several elements of least
cost is on top, and how the remaining elements are arranged, is left to the
library. -/
structure StdLib.Valid (L : StdLib) : Prop where
  iterate_perm : ∀ m, (L.iterate m).Perm m
  push_perm : ∀ n q, (L.push n q).Perm (n :: q)
  pop_nil : L.pop [] = none
  pop_some : ∀ q, q ≠ [] → ∃ m r, L.pop q = some (m, r)
  pop_perm : ∀ q m r, L.pop q = some (m, r) → (m :: r).Perm q
  pop_top : ∀ q m r, L.pop q = some (m, r) → ∀ x ∈ q, compare m x = false

/-- Faults of a run that has no defined result. -/
inductive Fault where
  | top_of_empty_queue : Fault
  | out_of_fuel : Fault
  deriving DecidableEq, Repr

/-! ## The class `huffman_coder` -/

/-- The data members of `huffman_coder` (lines 31-33). -/
structure coder where
  encoder : unordered_map Char (List Char)
  decoder : unordered_map (List Char) Char
  root : node
  deriving DecidableEq, Repr

/-- The two tables, threaded through `init_encoder_decoder`. -/
structure tables where
  encoder : unordered_map Char (List Char)
  decoder : unordered_map (List Char) Char
  deriving DecidableEq, Repr

/-- The member function `init_encoder_decoder` (lines 36-51). -/
def init_encoder_decoder : node → List Char → tables → tables
  | node.null, _, t => t
  | node.mk d _ l r, pre, t =>
    let t1 : tables :=
      if l.isNull && r.isNull then
        { encoder := t.encoder.assign d pre, decoder := t.decoder.assign pre d }
      else t
    let t2 := init_encoder_decoder l (pre ++ ['0']) t1
    init_encoder_decoder r (pre ++ ['1']) t2

/-- The loop `for (char c : feeder) freq_map[c]++` (lines 67-73). -/
def count_frequencies (feeder : List Char) : unordered_map Char Nat :=
  feeder.foldl (fun m c => let r := unordered_map.subscript m c 0
                           unordered_map.assign r.2 c (r.1 + 1)) []

/-- The loop filling `min_heap` with one leaf per entry (lines 76-80). -/
def fill_heap (L : StdLib) (freq_map : unordered_map Char Nat) : List node :=
  (L.iterate freq_map).foldl (fun h e => L.push (node.new e.1 e.2) h) []

/-- The loop `while (min_heap.size() > 1)` (lines 83-96), with a bound on the
number of iterations. -/
def merge_loop (L : StdLib) : Nat → List node → Except Fault (List node)
  | fuel, min_heap =>
    if min_heap.length > 1 then
      match fuel with
      | 0 => Except.error Fault.out_of_fuel
      | fuel + 1 =>
        match L.pop min_heap with
        | none => Except.error Fault.top_of_empty_queue
        | some (first, h1) =>
          match L.pop h1 with
          | none => Except.error Fault.top_of_empty_queue
          | some (second, h2) =>
            let new_node := node.mk '\x00' (first.cost + second.cost) first second
            merge_loop L fuel (L.push new_node h2)
    else Except.ok min_heap

/-- The constructor `huffman_coder(const string &feeder)` (lines 65-101). -/
def huffman_coder (L : StdLib) (feeder : List Char) : Except Fault coder :=
  let freq_map := count_frequencies feeder
  let min_heap := fill_heap L freq_map
  match merge_loop L min_heap.length min_heap with
  | Except.error e => Except.error e
  | Except.ok min_heap =>
    match L.top min_heap with
    | none => Except.error Fault.top_of_empty_queue
    | some root =>
      let t := init_encoder_decoder root [] { encoder := [], decoder := [] }
      Except.ok { encoder := t.encoder, decoder := t.decoder, root := root }

/-- The member function `encode` (lines 110-118): the encoded string and the
object after the call (`encoder[c]` is a non-const access). -/
def encode (self : coder) (source : List Char) : List Char × coder :=
  source.foldl
    (fun (st : List Char × coder) c =>
      let r := unordered_map.subscript st.2.encoder c []
      (st.1 ++ r.1, { st.2 with encoder := r.2 }))
    ([], self)

/-- The loop of `decode` (lines 125-134) on the state `(key, decoded_stream)`. -/
def decode_loop (decoder : unordered_map (List Char) Char) :
    List Char → List Char × List Char → List Char × List Char
  | [], st => st
  | c :: rest, (key, out) =>
    let key := key ++ [c]
    match unordered_map.find decoder key with
    | some d => decode_loop decoder rest ([], out ++ [d])
    | none => decode_loop decoder rest (key, out)

/-- The member function `decode` (lines 121-136). -/
def decode (self : coder) (coded_string : List Char) : List Char :=
  (decode_loop self.decoder coded_string ([], [])).2

/-! ## A concrete standard library -/

/-- Removes the first element of least cost. -/
def pop_first_min : List node → Option (node × List node)
  | [] => none
  | a :: q =>
    match pop_first_min q with
    | none => some (a, [])
    | some (m, r) => if compare a m then some (m, a :: r) else some (a, q)

/-- A library that iterates a map in insertion order and breaks ties in the
queue in favour of the element pushed first. -/
def stable_lib : StdLib where
  iterate := fun m => m
  push := fun n q => q ++ [n]
  pop := pop_first_min

/-! ## Auxiliary definitions used in the statements and proofs -/

/-- One iteration `freq_map[c]++`. -/
def count_step (m : unordered_map Char Nat) (c : Char) : unordered_map Char Nat :=
  let r := unordered_map.subscript m c 0
  unordered_map.assign r.2 c (r.1 + 1)

/-- The leaves of a tree with their paths from the root, in the order in which
`init_encoder_decoder` visits them; `pre` is the path of the root. -/
def code_list : node → List Char → List (Char × List Char)
  | node.null, _ => []
  | node.mk d _ l r, pre =>
    (if l.isNull && r.isNull then [(d, pre)] else [])
      ++ (code_list l (pre ++ ['0']) ++ code_list r (pre ++ ['1']))

/-- The leaves of a tree as pairs (character, cost), in the same order. -/
def leaf_list : node → List (Char × Nat)
  | node.null => []
  | node.mk d c l r =>
    (if l.isNull && r.isNull then [(d, c)] else []) ++ (leaf_list l ++ leaf_list r)

/-- A non-null tree each of whose nodes has no child or two children. -/
def strict_binary : node → Bool
  | node.null => false
  | node.mk _ _ l r => (l.isNull && r.isNull) || (strict_binary l && strict_binary r)

/-- Registering one leaf in both tables (lines 44-45). -/
def register (t : tables) (e : Char × List Char) : tables :=
  { encoder := t.encoder.assign e.1 e.2, decoder := t.decoder.assign e.2 e.1 }

/-- Neither of two strings is a prefix of the other. -/
def incomparable (u v : List Char) : Prop := ¬ u <+: v ∧ ¬ v <+: u

/-- The tables and the root the constructor stores for a tree. -/
def coder_of_root (root : node) : coder :=
  let t := init_encoder_decoder root [] { encoder := [], decoder := [] }
  { encoder := t.encoder, decoder := t.decoder, root := root }

/-- The queue holds strictly binary trees whose leaves are the entries of the
frequency map. -/
def shape_inv (freq_map : unordered_map Char Nat) (q : List node) : Prop :=
  (∀ n ∈ q, strict_binary n = true) ∧ (q.flatMap leaf_list).Perm freq_map

/-- The string `encode` appends for a character: its table entry, or the
empty string that `encoder[c]` creates for a character without entry. -/
def code_of (encoder : unordered_map Char (List Char)) (c : Char) : List Char :=
  (unordered_map.find encoder c).getD []

/-- One iteration of the loop of `encode`. -/
def encode_step (st : List Char × coder) (c : Char) : List Char × coder :=
  let r := unordered_map.subscript st.2.encoder c []
  (st.1 ++ r.1, { st.2 with encoder := r.2 })

/-- The sum of the costs stored in the inner nodes of a tree. -/
def icost : node → Nat
  | node.null => 0
  | node.mk _ c l r => if l.isNull && r.isNull then 0 else c + (icost l + icost r)

/-- Every inner node stores the sum of the costs of its two children. -/
def cost_ok : node → Bool
  | node.null => true
  | node.mk _ c l r =>
    (l.isNull && r.isNull) || (decide (c = l.cost + r.cost) && (cost_ok l && cost_ok r))

/-- The total cost of the greedy merge on an ascending list of weights: the
two least weights are replaced by their sum, which is paid, until one weight
is left. -/
def hcost_fuel : Nat → List Nat → Nat
  | 0, _ => 0
  | _ + 1, [] => 0
  | _ + 1, [_] => 0
  | fuel + 1, a :: b :: r => a + b + hcost_fuel fuel (List.orderedInsert (· ≤ ·) (a + b) r)

/-- The greedy merge cost of an ascending list of weights. -/
def hcost (l : List Nat) : Nat := hcost_fuel l.length l

/-- The greedy merge cost of a multiset of weights. -/
def hc (m : Multiset Nat) : Nat := hcost (m.sort (· ≤ ·))

/-- The queue invariant for costs: the trees are well formed, their inner
nodes store the sums of their children, and the costs paid so far plus the
greedy merge cost of the roots is the greedy merge cost of the frequencies. -/
def cost_inv (freq_map : unordered_map Char Nat) (q : List node) : Prop :=
  shape_inv freq_map q ∧ (∀ n ∈ q, cost_ok n = true)
    ∧ (q.map icost).sum + hc ((q.map node.cost : List Nat) : Multiset Nat)
        = hc ((freq_map.map Prod.snd : List Nat) : Multiset Nat)

/-- The number of inner nodes of a tree. -/
def inner_count : node → Nat
  | node.null => 0
  | node.mk _ _ l r => if l.isNull && r.isNull then 0 else 1 + (inner_count l + inner_count r)

/-- In every inner node the cost of the left child is at most the cost of the
right child. -/
def children_ordered : node → Bool
  | node.null => true
  | node.mk _ _ l r =>
    (l.isNull && r.isNull)
      || (decide (l.cost ≤ r.cost) && (children_ordered l && children_ordered r))

/-- The queue invariant for the trees: well formed, inner costs are the sums
of the children, left children cost at most as much as right children. -/
def tree_inv (freq_map : unordered_map Char Nat) (q : List node) : Prop :=
  shape_inv freq_map q ∧ ∀ n ∈ q, cost_ok n = true ∧ children_ordered n = true

/-- A second library: it iterates a map in reverse insertion order and
otherwise behaves as `stable_lib`. -/
def reverse_lib : StdLib where
  iterate := fun m => m.reverse
  push := fun n q => q ++ [n]
  pop := pop_first_min

/-! ## Lemmas on `unordered_map` -/

namespace unordered_map

variable {K V : Type} [DecidableEq K]

theorem find_eq_none_iff (m : unordered_map K V) (k : K) :
    find m k = none ↔ k ∉ m.map Prod.fst := by
  induction m with
  | nil => simp [find]
  | cons e m ih =>
    obtain ⟨k', v'⟩ := e
    by_cases h : k = k'
    · simp [find, h]
    · simp [find, h, ih]

theorem find_assign_self (m : unordered_map K V) (k : K) (v : V) :
    find (assign m k v) k = some v := by
  induction m with
  | nil => simp [assign, find]
  | cons e m ih =>
    obtain ⟨k', v'⟩ := e
    by_cases h : k = k'
    · simp [assign, find, h]
    · simp [assign, find, h, ih]

theorem find_assign_ne (m : unordered_map K V) (k k' : K) (v : V) (h : k' ≠ k) :
    find (assign m k v) k' = find m k' := by
  induction m with
  | nil => simp [assign, find, h]
  | cons e m ih =>
    obtain ⟨k2, v2⟩ := e
    by_cases h2 : k = k2
    · subst h2
      simp [assign, find, h]
    · by_cases h3 : k' = k2
      · simp [assign, find, h2, h3]
      · simp [assign, find, h2, h3, ih]

theorem assign_of_find_none (m : unordered_map K V) (k : K) (v : V)
    (h : find m k = none) : assign m k v = m ++ [(k, v)] := by
  induction m with
  | nil => simp [assign]
  | cons e m ih =>
    obtain ⟨k', v'⟩ := e
    by_cases h2 : k = k'
    · simp [find, h2] at h
    · simp only [find, h2, if_false] at h
      simp [assign, h2, ih h]

theorem keys_assign_of_find_some (m : unordered_map K V) (k : K) (v v' : V)
    (h : find m k = some v') : (assign m k v).map Prod.fst = m.map Prod.fst := by
  induction m with
  | nil => simp [find] at h
  | cons e m ih =>
    obtain ⟨k2, v2⟩ := e
    by_cases h2 : k = k2
    · simp [assign, h2]
    · simp only [find, h2, if_false] at h
      simp [assign, h2, ih h]

theorem mem_iff_find_of_nodup (m : unordered_map K V) (hm : (m.map Prod.fst).Nodup)
    (k : K) (v : V) : (k, v) ∈ m ↔ find m k = some v := by
  induction m with
  | nil => simp [find]
  | cons e m ih =>
    obtain ⟨k', v'⟩ := e
    simp only [List.map_cons, List.nodup_cons] at hm
    by_cases h : k = k'
    · subst h
      have : ∀ w, (k, w) ∉ m := fun w hw => hm.1 (List.mem_map.2 ⟨(k, w), hw, rfl⟩)
      simp [find, this, eq_comm]
    · simp [find, h, ih hm.2]

end unordered_map

/-! ## Frequency counting -/

theorem count_frequencies_eq (feeder : List Char) :
    count_frequencies feeder = feeder.foldl count_step [] := rfl

theorem find_count_step (m : unordered_map Char Nat) (c k : Char) :
    unordered_map.find (count_step m c) k
      = if k = c then some ((unordered_map.find m c).getD 0 + 1)
        else unordered_map.find m k := by
  unfold count_step unordered_map.subscript
  cases h : unordered_map.find m c with
  | none =>
    by_cases hk : k = c
    · subst hk
      simp [unordered_map.find_assign_self]
    · simp [hk, unordered_map.find_assign_ne]
  | some v =>
    by_cases hk : k = c
    · subst hk
      simp [unordered_map.find_assign_self]
    · simp [hk, unordered_map.find_assign_ne]

theorem keys_count_step (m : unordered_map Char Nat) (c : Char) :
    (count_step m c).map Prod.fst
      = if c ∈ m.map Prod.fst then m.map Prod.fst else m.map Prod.fst ++ [c] := by
  unfold count_step unordered_map.subscript
  cases h : unordered_map.find m c with
  | none =>
    have hc : c ∉ m.map Prod.fst := (unordered_map.find_eq_none_iff m c).1 h
    have h1 : unordered_map.assign m c 0 = m ++ [(c, 0)] :=
      unordered_map.assign_of_find_none m c 0 h
    have h2 : unordered_map.find (m ++ [(c, 0)]) c = some 0 := by
      rw [← h1]; exact unordered_map.find_assign_self m c 0
    simp only [h1, if_neg hc]
    rw [unordered_map.keys_assign_of_find_some _ c _ 0 h2]
    simp
  | some v =>
    have hc : c ∈ m.map Prod.fst := by
      by_contra hc
      rw [← unordered_map.find_eq_none_iff] at hc
      rw [hc] at h; cases h
    simp only [if_pos hc]
    exact unordered_map.keys_assign_of_find_some m c _ v h

theorem nodup_keys_foldl_count_step (s : List Char) :
    ∀ m : unordered_map Char Nat, (m.map Prod.fst).Nodup →
      ((s.foldl count_step m).map Prod.fst).Nodup := by
  induction s with
  | nil => intro m hm; simpa using hm
  | cons c s ih =>
    intro m hm
    simp only [List.foldl_cons]
    apply ih
    rw [keys_count_step]
    split
    · exact hm
    · rename_i hc
      rw [List.nodup_append]
      refine ⟨hm, List.nodup_singleton c, ?_⟩
      intro a ha hb
      simp only [List.mem_singleton] at hb
      subst hb
      exact hc ha

theorem find_foldl_count_step (s : List Char) :
    ∀ (m : unordered_map Char Nat) (k : Char),
      unordered_map.find (s.foldl count_step m) k
        = if k ∈ s then some ((unordered_map.find m k).getD 0 + s.count k)
          else unordered_map.find m k := by
  induction s with
  | nil => intro m k; simp
  | cons c s ih =>
    intro m k
    simp only [List.foldl_cons]
    rw [ih, find_count_step]
    by_cases hk : k = c
    · subst hk
      by_cases hs : k ∈ s
      · simp [hs]; omega
      · simp [hs, List.count_eq_zero_of_not_mem hs]
    · have hc : ¬ c = k := fun h => hk h.symm
      by_cases hs : k ∈ s
      · simp [hs, hk, List.count_cons, hc]
      · simp [hs, hk]

theorem nodup_keys_count_frequencies (feeder : List Char) :
    ((count_frequencies feeder).map Prod.fst).Nodup :=
  nodup_keys_foldl_count_step feeder [] (by simp)

theorem find_count_frequencies (feeder : List Char) (k : Char) :
    unordered_map.find (count_frequencies feeder) k
      = if k ∈ feeder then some (feeder.count k) else none := by
  rw [count_frequencies_eq, find_foldl_count_step]
  simp [unordered_map.find]

theorem mem_keys_count_frequencies (feeder : List Char) (k : Char) :
    k ∈ (count_frequencies feeder).map Prod.fst ↔ k ∈ feeder := by
  have h := unordered_map.find_eq_none_iff (count_frequencies feeder) k
  rw [find_count_frequencies] at h
  by_cases hk : k ∈ feeder
  · simp only [hk, if_true] at h
    simp only [hk, iff_true]
    by_contra hc
    have := h.2 hc
    cases this
  · simp only [hk, if_false, true_iff] at h
    simp [hk, h]

theorem mem_count_frequencies (feeder : List Char) (k : Char) (v : Nat) :
    (k, v) ∈ count_frequencies feeder ↔ k ∈ feeder ∧ v = feeder.count k := by
  rw [unordered_map.mem_iff_find_of_nodup _ (nodup_keys_count_frequencies feeder),
    find_count_frequencies]
  by_cases hk : k ∈ feeder
  · simp [hk, eq_comm]
  · simp [hk]

theorem keys_count_frequencies_perm (feeder : List Char) :
    ((count_frequencies feeder).map Prod.fst).Perm feeder.dedup := by
  rw [List.perm_ext_iff_of_nodup (nodup_keys_count_frequencies feeder) (List.nodup_dedup feeder)]
  intro a
  rw [mem_keys_count_frequencies, List.mem_dedup]

/-! ## Trees and the code table read off a tree -/

theorem init_encoder_decoder_eq (n : node) :
    ∀ (pre : List Char) (t : tables),
      init_encoder_decoder n pre t = (code_list n pre).foldl register t := by
  induction n with
  | null => intro pre t; simp [init_encoder_decoder, code_list]
  | mk d c l r ihl ihr =>
    intro pre t
    simp only [init_encoder_decoder, code_list, List.foldl_append, ihl, ihr]
    by_cases h : (l.isNull && r.isNull) = true
    · simp [h, register]
    · simp [h]

theorem foldl_register (cl : List (Char × List Char)) :
    ∀ t : tables,
      (t.encoder.map Prod.fst ++ cl.map Prod.fst).Nodup →
      (t.decoder.map Prod.fst ++ cl.map Prod.snd).Nodup →
      cl.foldl register t
        = { encoder := t.encoder ++ cl, decoder := t.decoder ++ cl.map Prod.swap } := by
  induction cl with
  | nil => intro t _ _; simp
  | cons e cl ih =>
    intro t h1 h2
    obtain ⟨c, w⟩ := e
    have hc : c ∉ t.encoder.map Prod.fst := by
      intro hc
      have := (List.nodup_append.1 h1).2.2
      exact this hc (by simp) 
    have hw : w ∉ t.decoder.map Prod.fst := by
      intro hw
      have := (List.nodup_append.1 h2).2.2
      exact this hw (by simp)
    have e1 := unordered_map.assign_of_find_none t.encoder c w
      ((unordered_map.find_eq_none_iff _ _).2 hc)
    have e2 := unordered_map.assign_of_find_none t.decoder w c
      ((unordered_map.find_eq_none_iff _ _).2 hw)
    simp only [List.foldl_cons, register, e1, e2]
    rw [ih]
    · simp
    · simpa using h1
    · simpa using h2

theorem prefix_of_mem_code_list (n : node) :
    ∀ (pre : List Char) (e : Char × List Char), e ∈ code_list n pre → pre <+: e.2 := by
  induction n with
  | null => intro pre e h; simp [code_list] at h
  | mk d c l r ihl ihr =>
    intro pre e h
    simp only [code_list, List.mem_append] at h
    rcases h with h | h | h
    · by_cases hl : (l.isNull && r.isNull) = true
      · simp only [hl, if_true, List.mem_singleton] at h
        subst h
        exact List.prefix_refl _
      · simp [hl] at h
    · exact (List.prefix_append pre ['0']).trans (ihl _ _ h)
    · exact (List.prefix_append pre ['1']).trans (ihr _ _ h)

theorem incomparable_of_branches (pre u v : List Char)
    (hu : pre ++ ['0'] <+: u) (hv : pre ++ ['1'] <+: v) : incomparable u v := by
  obtain ⟨x, rfl⟩ := hu
  obtain ⟨y, rfl⟩ := hv
  constructor
  · rintro ⟨z, hz⟩
    simp only [List.append_assoc, List.append_cancel_left_eq] at hz
    simp at hz
  · rintro ⟨z, hz⟩
    simp only [List.append_assoc, List.append_cancel_left_eq] at hz
    simp at hz

theorem isNull_eq_true (n : node) : n.isNull = true ↔ n = node.null := by
  cases n <;> simp [node.isNull]

theorem code_list_pairwise (n : node) :
    ∀ pre : List Char, strict_binary n = true →
      (code_list n pre).Pairwise (fun a b => incomparable a.2 b.2) := by
  induction n with
  | null => intro pre h; simp [code_list]
  | mk d c l r ihl ihr =>
    intro pre h
    simp only [strict_binary, Bool.or_eq_true, Bool.and_eq_true] at h
    by_cases hl : (l.isNull && r.isNull) = true
    · simp only [Bool.and_eq_true, isNull_eq_true] at hl
      obtain ⟨rfl, rfl⟩ := hl
      simp [code_list, node.isNull]
    · rcases h with h | h
      · exact absurd (by simpa using h) hl
      · simp only [code_list, hl, if_false, List.nil_append, Bool.false_eq_true]
        rw [List.pairwise_append]
        refine ⟨ihl _ h.1, ihr _ h.2, ?_⟩
        intro a ha b hb
        exact incomparable_of_branches pre a.2 b.2
          (prefix_of_mem_code_list l _ a ha) (prefix_of_mem_code_list r _ b hb)

theorem code_list_chars (n : node) :
    ∀ pre : List Char, (code_list n pre).map Prod.fst = (leaf_list n).map Prod.fst := by
  induction n with
  | null => intro pre; simp [code_list, leaf_list]
  | mk d c l r ihl ihr =>
    intro pre
    simp only [code_list, leaf_list, List.map_append, ihl, ihr]
    by_cases hl : (l.isNull && r.isNull) = true
    · simp [hl]
    · simp [hl]

theorem code_list_nodup_codes (n : node) (pre : List Char) (h : strict_binary n = true) :
    ((code_list n pre).map Prod.snd).Nodup := by
  rw [List.Nodup, List.pairwise_map]
  refine (code_list_pairwise n pre h).imp ?_
  intro a b hab heq
  exact hab.1 (heq ▸ List.prefix_refl _)

/-! ## The merge loop -/

theorem compare_eq_false (a b : node) : compare a b = false ↔ a.cost ≤ b.cost := by
  simp [compare]

theorem fill_heap_perm (L : StdLib) (hL : L.Valid) (freq_map : unordered_map Char Nat) :
    (fill_heap L freq_map).Perm (freq_map.map (fun e => node.new e.1 e.2)) := by
  have key : ∀ (xs : List (Char × Nat)) (h : List node),
      (xs.foldl (fun h e => L.push (node.new e.1 e.2) h) h).Perm
        (xs.map (fun e => node.new e.1 e.2) ++ h) := by
    intro xs
    induction xs with
    | nil => intro h; simp
    | cons x xs ih =>
      intro h
      simp only [List.foldl_cons, List.map_cons, List.cons_append]
      refine (ih _).trans ?_
      refine ((hL.push_perm _ h).append_left _).trans ?_
      exact List.perm_middle
  have h1 := key (L.iterate freq_map) []
  simp only [List.append_nil] at h1
  exact h1.trans ((hL.iterate_perm freq_map).map _)

theorem pop_singleton (L : StdLib) (hL : L.Valid) (t : node) : L.pop [t] = some (t, []) := by
  obtain ⟨m, r, h⟩ := hL.pop_some [t] (by simp)
  have hp := hL.pop_perm _ _ _ h
  have hlen := hp.length_eq
  simp only [List.length_cons, List.length_nil] at hlen
  have hr : r = [] := List.length_eq_zero.1 (by omega)
  subst hr
  have := List.perm_singleton.1 hp.symm
  simp only [List.cons.injEq, and_true] at this
  rw [h, this]

/-- Loop invariant rule for the merge loop: a property of the queue that does
not depend on the internal order and is kept when two least elements are
replaced by their parent holds of the single tree left at the end, and the
loop does end within `fuel` iterations. -/
theorem merge_loop_rule (L : StdLib) (hL : L.Valid) (I : List node → Prop)
    (hperm : ∀ q q', q.Perm q' → I q → I q')
    (hstep : ∀ a b r, I (a :: b :: r) → a.cost ≤ b.cost → (∀ x ∈ r, b.cost ≤ x.cost) →
      I (node.mk '\x00' (a.cost + b.cost) a b :: r)) :
    ∀ (fuel : Nat) (q : List node), q ≠ [] → q.length ≤ fuel + 1 → I q →
      ∃ t, merge_loop L fuel q = Except.ok [t] ∧ I [t] := by
  intro fuel
  induction fuel with
  | zero =>
    intro q hq hlen hI
    match q, hq, hlen with
    | [t], _, _ =>
      refine ⟨t, ?_, hI⟩
      simp [merge_loop]
  | succ fuel ih =>
    intro q hq hlen hI
    by_cases h1 : q.length > 1
    · obtain ⟨first, h1q, hpop1⟩ := hL.pop_some q hq
      have hp1 := hL.pop_perm _ _ _ hpop1
      have hl1 := hp1.length_eq
      simp only [List.length_cons] at hl1
      have hne : h1q ≠ [] := by
        intro h; subst h; simp at hl1; omega
      obtain ⟨second, h2q, hpop2⟩ := hL.pop_some h1q hne
      have hp2 := hL.pop_perm _ _ _ hpop2
      have hl2 := hp2.length_eq
      simp only [List.length_cons] at hl2
      have hI2 : I (first :: second :: h2q) :=
        hperm _ _ ((hp2.cons first).trans hp1).symm hI
      have hmin1 := hL.pop_top _ _ _ hpop1
      have hmin2 := hL.pop_top _ _ _ hpop2
      have hab : first.cost ≤ second.cost := by
        rw [← compare_eq_false]
        exact hmin1 second (hp1.subset (List.mem_cons_of_mem _ (hp2.subset (List.mem_cons_self _ _))))
      have hbr : ∀ x ∈ h2q, second.cost ≤ x.cost := by
        intro x hx
        rw [← compare_eq_false]
        exact hmin2 x (hp2.subset (List.mem_cons_of_mem _ hx))
      have hI3 := hstep _ _ _ hI2 hab hbr
      have hpush := hL.push_perm (node.mk '\x00' (first.cost + second.cost) first second) h2q
      have hI4 := hperm _ _ hpush.symm hI3
      have hlen4 := hpush.length_eq
      simp only [List.length_cons] at hlen4
      obtain ⟨t, ht, hIt⟩ := ih _ (by intro h; rw [h] at hlen4; simp at hlen4)
        (by omega) hI4
      refine ⟨t, ?_, hIt⟩
      rw [merge_loop]
      simp only [h1, if_true, hpop1, hpop2]
      exact ht
    · match q, hq, h1 with
      | [t], _, _ =>
        refine ⟨t, ?_, hI⟩
        simp [merge_loop]
      | a :: b :: r, _, h1 => simp at h1

/-- Invariant rule for the constructor: on a non-empty sample it returns the
coder of a tree that satisfies every queue invariant the initial leaves satisfy. -/
theorem huffman_coder_rule (L : StdLib) (hL : L.Valid) (feeder : List Char)
    (hne : feeder ≠ []) (I : List node → Prop)
    (hperm : ∀ q q', q.Perm q' → I q → I q')
    (hstep : ∀ a b r, I (a :: b :: r) → a.cost ≤ b.cost → (∀ x ∈ r, b.cost ≤ x.cost) →
      I (node.mk '\x00' (a.cost + b.cost) a b :: r))
    (hinit : I ((count_frequencies feeder).map (fun e => node.new e.1 e.2))) :
    ∃ root, huffman_coder L feeder = Except.ok (coder_of_root root) ∧ I [root] := by
  have hfill := fill_heap_perm L hL (count_frequencies feeder)
  have hq : fill_heap L (count_frequencies feeder) ≠ [] := by
    intro h
    rw [h] at hfill
    have h2 := hfill.length_eq
    simp only [List.length_nil, List.length_map] at h2
    have h3 : count_frequencies feeder = [] := List.length_eq_zero.1 h2.symm
    cases feeder with
    | nil => exact hne rfl
    | cons c s =>
      have := (mem_keys_count_frequencies (c :: s) c).2 (List.mem_cons_self _ _)
      rw [h3] at this
      simp at this
  obtain ⟨t, ht, hIt⟩ := merge_loop_rule L hL I hperm hstep
    (fill_heap L (count_frequencies feeder)).length _ hq (by omega)
    (hperm _ _ hfill.symm hinit)
  refine ⟨t, ?_, hIt⟩
  simp only [huffman_coder, ht, StdLib.top, pop_singleton L hL t, coder_of_root, Option.map_some']

/-! ## Shape of the built tree and of the tables -/

theorem strict_binary_ne_null (n : node) (h : strict_binary n = true) : n.isNull = false := by
  cases n with
  | null => simp [strict_binary] at h
  | mk d c l r => rfl

theorem leaf_list_new (d : Char) (c : Nat) : leaf_list (node.new d c) = [(d, c)] := by
  simp [node.new, leaf_list, node.isNull]

theorem leaf_list_merge (d : Char) (c : Nat) (a b : node) (ha : strict_binary a = true) :
    leaf_list (node.mk d c a b) = leaf_list a ++ leaf_list b := by
  simp [leaf_list, strict_binary_ne_null a ha]

theorem shape_inv_perm (fm : unordered_map Char Nat) (q q' : List node) (h : q.Perm q')
    (hq : shape_inv fm q) : shape_inv fm q' :=
  ⟨fun n hn => hq.1 n (h.symm.subset hn), (h.symm.flatMap_right leaf_list).trans hq.2⟩

theorem shape_inv_step (fm : unordered_map Char Nat) (a b : node) (r : List node)
    (hq : shape_inv fm (a :: b :: r)) :
    shape_inv fm (node.mk '\x00' (a.cost + b.cost) a b :: r) := by
  obtain ⟨h1, h2⟩ := hq
  have ha := h1 a (by simp)
  have hb := h1 b (by simp)
  constructor
  · intro n hn
    rcases List.mem_cons.1 hn with rfl | hn
    · simp [strict_binary, ha, hb]
    · exact h1 n (by simp [hn])
  · simp only [List.flatMap_cons, leaf_list_merge _ _ a b ha] at h2 ⊢
    simpa [List.append_assoc] using h2

theorem shape_inv_init (fm : unordered_map Char Nat) :
    shape_inv fm (fm.map (fun e => node.new e.1 e.2)) := by
  constructor
  · intro n hn
    obtain ⟨e, _, rfl⟩ := List.mem_map.1 hn
    simp [node.new, strict_binary, node.isNull]
  · have : ∀ xs : List (Char × Nat),
        (xs.map (fun e => node.new e.1 e.2)).flatMap leaf_list = xs := by
      intro xs
      induction xs with
      | nil => rfl
      | cons x xs ih => simp [List.flatMap_cons, leaf_list_new, ih]
    rw [this]

theorem coder_of_root_eq (root : node) (hs : strict_binary root = true)
    (hn : ((leaf_list root).map Prod.fst).Nodup) :
    coder_of_root root
      = { encoder := code_list root [],
          decoder := (code_list root []).map Prod.swap,
          root := root } := by
  unfold coder_of_root
  rw [init_encoder_decoder_eq, foldl_register]
  · simp
  · simpa [code_list_chars] using hn
  · simpa using code_list_nodup_codes root [] hs

/-- The constructor succeeds on every non-empty sample, and its tables are
the leaves of a strictly binary tree over the entries of the frequency map. -/
theorem huffman_coder_shape (L : StdLib) (hL : L.Valid) (feeder : List Char)
    (hne : feeder ≠ []) :
    ∃ root, huffman_coder L feeder
        = Except.ok { encoder := code_list root [],
                      decoder := (code_list root []).map Prod.swap,
                      root := root }
      ∧ strict_binary root = true
      ∧ (leaf_list root).Perm (count_frequencies feeder) := by
  obtain ⟨root, h1, h2, h3⟩ := huffman_coder_rule L hL feeder hne
    (shape_inv (count_frequencies feeder)) (shape_inv_perm _)
    (fun a b r h _ _ => shape_inv_step _ a b r h) (shape_inv_init _)
  have hs := h2 root (by simp)
  have hp : (leaf_list root).Perm (count_frequencies feeder) := by simpa using h3
  refine ⟨root, ?_, hs, hp⟩
  rw [h1, coder_of_root_eq root hs]
  exact (hp.map Prod.fst).nodup_iff.2 (nodup_keys_count_frequencies feeder)

theorem code_list_keys_perm (root : node) (feeder : List Char)
    (hp : (leaf_list root).Perm (count_frequencies feeder)) :
    ((code_list root []).map Prod.fst).Perm feeder.dedup := by
  rw [code_list_chars]
  exact (hp.map Prod.fst).trans (keys_count_frequencies_perm feeder)

theorem code_list_nodup_keys (root : node) (feeder : List Char)
    (hp : (leaf_list root).Perm (count_frequencies feeder)) :
    ((code_list root []).map Prod.fst).Nodup :=
  (code_list_keys_perm root feeder hp).nodup_iff.2 (List.nodup_dedup feeder)

theorem exists_code_of_mem (root : node) (feeder : List Char)
    (hp : (leaf_list root).Perm (count_frequencies feeder)) (c : Char) (hc : c ∈ feeder) :
    ∃ w, (c, w) ∈ code_list root []
      ∧ unordered_map.find (code_list root []) c = some w := by
  have h1 : c ∈ (code_list root []).map Prod.fst :=
    (code_list_keys_perm root feeder hp).symm.subset (List.mem_dedup.2 hc)
  obtain ⟨e, he, rfl⟩ := List.mem_map.1 h1
  exact ⟨e.2, he, (unordered_map.mem_iff_find_of_nodup _
    (code_list_nodup_keys root feeder hp) _ _).1 he⟩

theorem find_swap_iff (cl : List (Char × List Char))
    (h1 : (cl.map Prod.fst).Nodup) (h2 : (cl.map Prod.snd).Nodup) (c : Char) (w : List Char) :
    unordered_map.find cl c = some w ↔ unordered_map.find (cl.map Prod.swap) w = some c := by
  rw [← unordered_map.mem_iff_find_of_nodup _ h1,
    ← unordered_map.mem_iff_find_of_nodup _ (by simpa [Function.comp_def] using h2)]
  simp only [List.mem_map, Prod.exists, Prod.swap_prod_mk, Prod.mk.injEq]
  constructor
  · intro h; exact ⟨c, w, h, rfl, rfl⟩
  · rintro ⟨a, b, h, rfl, rfl⟩; exact h

/-! ## `encode` and `decode` -/

theorem subscript_fst (m : unordered_map Char (List Char)) (c : Char) :
    (unordered_map.subscript m c []).1 = code_of m c := by
  unfold unordered_map.subscript code_of
  cases unordered_map.find m c <;> rfl

theorem code_of_subscript_snd (m : unordered_map Char (List Char)) (c k : Char) :
    code_of (unordered_map.subscript m c []).2 k = code_of m k := by
  unfold unordered_map.subscript code_of
  cases h : unordered_map.find m c with
  | some v => rfl
  | none =>
    by_cases hk : k = c
    · subst hk
      simp [unordered_map.find_assign_self, h]
    · simp [unordered_map.find_assign_ne _ _ _ _ hk]

theorem encode_eq (self : coder) (source : List Char) :
    encode self source = source.foldl encode_step ([], self) := rfl

theorem foldl_encode_step (source : List Char) :
    ∀ st : List Char × coder,
      (source.foldl encode_step st).1 = st.1 ++ source.flatMap (code_of st.2.encoder)
      ∧ (source.foldl encode_step st).2.decoder = st.2.decoder
      ∧ (source.foldl encode_step st).2.root = st.2.root
      ∧ ∀ k, code_of (source.foldl encode_step st).2.encoder k = code_of st.2.encoder k := by
  induction source with
  | nil => intro st; simp
  | cons c source ih =>
    intro st
    obtain ⟨h1, h2, h3, h4⟩ := ih (encode_step st c)
    have hk : ∀ k, code_of (encode_step st c).2.encoder k = code_of st.2.encoder k := by
      intro k
      simp only [encode_step]
      exact code_of_subscript_snd _ _ _
    have hf : code_of (encode_step st c).2.encoder = code_of st.2.encoder := funext hk
    simp only [List.foldl_cons]
    refine ⟨?_, ?_, ?_, ?_⟩
    · rw [h1, hf]
      simp [encode_step, subscript_fst, List.flatMap_cons]
    · rw [h2]; rfl
    · rw [h3]; rfl
    · intro k; rw [h4, hk]

/-- The output of `encode` is the concatenation of the strings `code_of`. -/
theorem encode_fst (self : coder) (source : List Char) :
    (encode self source).1 = source.flatMap (code_of self.encoder) := by
  rw [encode_eq, (foldl_encode_step source ([], self)).1]
  simp

theorem encode_snd_decoder (self : coder) (source : List Char) :
    (encode self source).2.decoder = self.decoder := by
  rw [encode_eq, (foldl_encode_step source ([], self)).2.1]

theorem decode_loop_code (decoder : unordered_map (List Char) Char) (w : List Char) (c : Char)
    (hw : unordered_map.find decoder w = some c)
    (hp : ∀ p, p <+: w → p ≠ w → p ≠ [] → unordered_map.find decoder p = none)
    (rest out : List Char) :
    ∀ (rem key : List Char), key ++ rem = w → rem ≠ [] →
      decode_loop decoder (rem ++ rest) (key, out) = decode_loop decoder rest ([], out ++ [c]) := by
  intro rem
  induction rem with
  | nil => intro key _ h; exact absurd rfl h
  | cons x rem ih =>
    intro key hk _
    simp only [List.cons_append, decode_loop]
    by_cases hr : rem = []
    · subst hr
      simp only [hk, hw]
      rfl
    · have hpre : key ++ [x] <+: w := ⟨rem, by rw [← hk]; simp⟩
      have hne : key ++ [x] ≠ w := by
        intro h
        rw [← hk] at h
        have := congrArg List.length h
        simp at this
        exact hr this
      rw [hp _ hpre hne (by simp)]
      exact ih (key ++ [x]) (by rw [← hk]; simp) hr

theorem decode_loop_flatMap (decoder : unordered_map (List Char) Char)
    (code : Char → List Char) (text : List Char)
    (hcode : ∀ c ∈ text, code c ≠ [] ∧ unordered_map.find decoder (code c) = some c
      ∧ ∀ p, p <+: code c → p ≠ code c → p ≠ [] → unordered_map.find decoder p = none) :
    ∀ (rest out : List Char),
      decode_loop decoder (text.flatMap code ++ rest) ([], out)
        = decode_loop decoder rest ([], out ++ text) := by
  induction text with
  | nil => intro rest out; simp
  | cons c text ih =>
    intro rest out
    obtain ⟨h1, h2, h3⟩ := hcode c (List.mem_cons_self _ _)
    simp only [List.flatMap_cons, List.append_assoc]
    rw [decode_loop_code decoder (code c) c h2 h3 _ out (code c) [] (by simp) h1]
    rw [ih (fun c hc => hcode c (List.mem_cons_of_mem _ hc))]
    simp

/-! ## The concrete library is valid -/

theorem pop_first_min_spec (q : List node) :
    (q = [] → pop_first_min q = none) ∧
    (q ≠ [] → ∃ m r, pop_first_min q = some (m, r) ∧ (m :: r).Perm q
      ∧ ∀ x ∈ q, m.cost ≤ x.cost) := by
  induction q with
  | nil => simp [pop_first_min]
  | cons a q ih =>
    refine ⟨by simp, fun _ => ?_⟩
    cases q with
    | nil => exact ⟨a, [], by simp [pop_first_min], List.Perm.refl _, by simp⟩
    | cons b q =>
      obtain ⟨m, r, h1, h2, h3⟩ := ih.2 (by simp)
      by_cases hc : compare a m = true
      · refine ⟨m, a :: r, by rw [pop_first_min, h1]; simp [hc], ?_, ?_⟩
        · exact (List.Perm.swap a m r).trans (h2.cons a)
        · intro x hx
          rcases List.mem_cons.1 hx with rfl | hx
          · simp only [compare, decide_eq_true_eq] at hc; omega
          · exact h3 x hx
      · refine ⟨a, b :: q, by rw [pop_first_min, h1]; simp [hc], List.Perm.refl _, ?_⟩
        intro x hx
        simp only [compare, decide_eq_true_eq, not_lt] at hc
        rcases List.mem_cons.1 hx with rfl | hx
        · exact le_refl _
        · exact hc.trans (h3 x hx)

theorem stable_lib_valid : stable_lib.Valid where
  iterate_perm := fun m => List.Perm.refl m
  push_perm := fun n q => List.perm_append_singleton n q
  pop_nil := rfl
  pop_some := fun q hq => by
    obtain ⟨m, r, h, _⟩ := (pop_first_min_spec q).2 hq
    exact ⟨m, r, h⟩
  pop_perm := fun q m r h => by
    cases q with
    | nil => simp [stable_lib, pop_first_min] at h
    | cons a q =>
      obtain ⟨m', r', h1, h2, _⟩ := (pop_first_min_spec (a :: q)).2 (by simp)
      have : stable_lib.pop (a :: q) = some (m', r') := h1
      rw [this] at h
      simp only [Option.some.injEq, Prod.mk.injEq] at h
      obtain ⟨rfl, rfl⟩ := h
      exact h2
  pop_top := fun q m r h x hx => by
    cases q with
    | nil => simp at hx
    | cons a q =>
      obtain ⟨m', r', h1, _, h3⟩ := (pop_first_min_spec (a :: q)).2 (by simp)
      have : stable_lib.pop (a :: q) = some (m', r') := h1
      rw [this] at h
      simp only [Option.some.injEq, Prod.mk.injEq] at h
      obtain ⟨rfl, rfl⟩ := h
      rw [compare_eq_false]
      exact h3 x hx

/-! ## Round trip, prefix freedom and the inverse tables -/

theorem code_list_incomparable (n : node) (pre : List Char) (h : strict_binary n = true)
    (a b : Char × List Char) (ha : a ∈ code_list n pre) (hb : b ∈ code_list n pre)
    (hab : a ≠ b) : incomparable a.2 b.2 := by
  have hsymm : Symmetric (fun a b : Char × List Char => incomparable a.2 b.2) :=
    fun x y hxy => ⟨hxy.2, hxy.1⟩
  exact (code_list_pairwise n pre h).forall hsymm ha hb hab

/-- C1. Round trip: for a sample with at least two distinct characters and a
text over the characters of the sample, the constructor returns a coder, and
decoding the encoded text gives the text back. -/
theorem round_trip (L : StdLib) (hL : L.Valid) (sample text : List Char)
    (h2 : ∃ a ∈ sample, ∃ b ∈ sample, a ≠ b) (ht : ∀ c ∈ text, c ∈ sample) :
    ∃ self, huffman_coder L sample = Except.ok self
      ∧ decode (encode self text).2 (encode self text).1 = text := by
  have hne : sample ≠ [] := by
    obtain ⟨a, ha, _⟩ := h2
    exact List.ne_nil_of_mem ha
  obtain ⟨root, hc, hs, hp⟩ := huffman_coder_shape L hL sample hne
  refine ⟨_, hc, ?_⟩
  have hk1 := code_list_nodup_keys root sample hp
  have hk2 := code_list_nodup_codes root [] hs
  have hcode : ∀ c ∈ text, code_of (code_list root []) c ≠ []
      ∧ unordered_map.find ((code_list root []).map Prod.swap) (code_of (code_list root []) c)
          = some c
      ∧ ∀ p, p <+: code_of (code_list root []) c → p ≠ code_of (code_list root []) c → p ≠ []
          → unordered_map.find ((code_list root []).map Prod.swap) p = none := by
    intro c hct
    obtain ⟨w, hmem, hfind⟩ := exists_code_of_mem root sample hp c (ht c hct)
    have hw : code_of (code_list root []) c = w := by simp [code_of, hfind]
    rw [hw]
    refine ⟨?_, (find_swap_iff _ hk1 hk2 c w).1 hfind, ?_⟩
    · intro hnil
      obtain ⟨a, ha, b, hb, hab⟩ := h2
      have hex : ∃ d ∈ sample, d ≠ c := by
        by_cases hac : a = c
        · exact ⟨b, hb, fun h => hab (hac.trans h.symm)⟩
        · exact ⟨a, ha, hac⟩
      obtain ⟨d, hd, hdc⟩ := hex
      obtain ⟨wd, hmemd, _⟩ := exists_code_of_mem root sample hp d hd
      have hinc := code_list_incomparable root [] hs (c, w) (d, wd) hmem hmemd
        (by intro h; exact hdc (congrArg Prod.fst h).symm)
      apply hinc.1
      simp only [hnil]
      exact List.nil_prefix
    · intro p hpre hpw _
      cases hfp : unordered_map.find ((code_list root []).map Prod.swap) p with
      | none => rfl
      | some c' =>
        exfalso
        have h1 := (find_swap_iff _ hk1 hk2 c' p).2 hfp
        have hmem' := (unordered_map.mem_iff_find_of_nodup _ hk1 _ _).2 h1
        have hinc := code_list_incomparable root [] hs (c', p) (c, w) hmem' hmem
          (by intro h; exact hpw (congrArg Prod.snd h))
        exact hinc.1 hpre
  have hloop := decode_loop_flatMap ((code_list root []).map Prod.swap)
    (code_of (code_list root [])) text hcode [] []
  simp only [List.append_nil, List.nil_append] at hloop
  simp only [decode, encode_fst, encode_snd_decoder, hloop, decode_loop]

/-- Witness of C1: the sample and text `"hey pratap"` of `main`. -/
theorem round_trip_witness :
    stable_lib.Valid
    ∧ (∃ a ∈ ['h', 'e', 'y', ' ', 'p', 'r', 'a', 't', 'a', 'p'],
        ∃ b ∈ ['h', 'e', 'y', ' ', 'p', 'r', 'a', 't', 'a', 'p'], a ≠ b)
    ∧ (∀ c ∈ ['h', 'e', 'y', ' ', 'p', 'r', 'a', 't', 'a', 'p'],
        c ∈ ['h', 'e', 'y', ' ', 'p', 'r', 'a', 't', 'a', 'p'])
    ∧ ∃ self, huffman_coder stable_lib ['h', 'e', 'y', ' ', 'p', 'r', 'a', 't', 'a', 'p']
          = Except.ok self
        ∧ decode (encode self ['h', 'e', 'y', ' ', 'p', 'r', 'a', 't', 'a', 'p']).2
            (encode self ['h', 'e', 'y', ' ', 'p', 'r', 'a', 't', 'a', 'p']).1
          = ['h', 'e', 'y', ' ', 'p', 'r', 'a', 't', 'a', 'p'] :=
  ⟨stable_lib_valid, ⟨'h', by decide, 'e', by decide, by decide⟩, fun _ hc => hc,
    round_trip stable_lib stable_lib_valid _ _
      ⟨'h', by decide, 'e', by decide, by decide⟩ (fun _ hc => hc)⟩

/-- C2. Prefix-free: for two distinct characters of the sample, both have an
entry in the encoder table built by the constructor, and the code of the
first is not a prefix of the code of the second. -/
theorem prefix_free (L : StdLib) (hL : L.Valid) (sample : List Char) (c1 c2 : Char)
    (h1 : c1 ∈ sample) (h2 : c2 ∈ sample) (hd : c1 ≠ c2) :
    ∃ self, huffman_coder L sample = Except.ok self
      ∧ ∃ w1 w2, unordered_map.find self.encoder c1 = some w1
        ∧ unordered_map.find self.encoder c2 = some w2
        ∧ ¬ w1 <+: w2 := by
  obtain ⟨root, hc, hs, hp⟩ := huffman_coder_shape L hL sample (List.ne_nil_of_mem h1)
  refine ⟨_, hc, ?_⟩
  obtain ⟨w1, hm1, hf1⟩ := exists_code_of_mem root sample hp c1 h1
  obtain ⟨w2, hm2, hf2⟩ := exists_code_of_mem root sample hp c2 h2
  refine ⟨w1, w2, hf1, hf2, ?_⟩
  exact (code_list_incomparable root [] hs (c1, w1) (c2, w2) hm1 hm2
    (by intro h; exact hd (congrArg Prod.fst h))).1

/-- Witness of C2: the characters `'h'` and `'p'` of `"hey pratap"`. -/
theorem prefix_free_witness :
    stable_lib.Valid
    ∧ 'h' ∈ ['h', 'e', 'y', ' ', 'p', 'r', 'a', 't', 'a', 'p']
    ∧ 'p' ∈ ['h', 'e', 'y', ' ', 'p', 'r', 'a', 't', 'a', 'p']
    ∧ 'h' ≠ 'p'
    ∧ ∃ self, huffman_coder stable_lib ['h', 'e', 'y', ' ', 'p', 'r', 'a', 't', 'a', 'p']
          = Except.ok self
        ∧ ∃ w1 w2, unordered_map.find self.encoder 'h' = some w1
          ∧ unordered_map.find self.encoder 'p' = some w2
          ∧ ¬ w1 <+: w2 :=
  ⟨stable_lib_valid, by decide, by decide, by decide,
    prefix_free stable_lib stable_lib_valid _ 'h' 'p' (by decide) (by decide) (by decide)⟩

/-- C4. Bijection: after construction from a non-empty sample the encoder and
decoder tables are inverse to each other, and each has as many entries as the
sample has distinct characters. -/
theorem tables_inverse (L : StdLib) (hL : L.Valid) (sample : List Char) (hne : sample ≠ []) :
    ∃ self, huffman_coder L sample = Except.ok self
      ∧ (∀ c w, unordered_map.find self.encoder c = some w
          ↔ unordered_map.find self.decoder w = some c)
      ∧ unordered_map.size self.encoder = sample.toFinset.card
      ∧ unordered_map.size self.decoder = sample.toFinset.card := by
  obtain ⟨root, hc, hs, hp⟩ := huffman_coder_shape L hL sample hne
  refine ⟨_, hc, ?_, ?_, ?_⟩
  · intro c w
    exact find_swap_iff _ (code_list_nodup_keys root sample hp)
      (code_list_nodup_codes root [] hs) c w
  · have := (code_list_keys_perm root sample hp).length_eq
    simp only [List.length_map] at this
    simp only [unordered_map.size, this, List.card_toFinset]
  · have := (code_list_keys_perm root sample hp).length_eq
    simp only [List.length_map] at this
    simp only [unordered_map.size, List.length_map, this, List.card_toFinset]

/-- Witness of C4: the sample `"hey pratap"`. -/
theorem tables_inverse_witness :
    stable_lib.Valid
    ∧ ['h', 'e', 'y', ' ', 'p', 'r', 'a', 't', 'a', 'p'] ≠ []
    ∧ ∃ self, huffman_coder stable_lib ['h', 'e', 'y', ' ', 'p', 'r', 'a', 't', 'a', 'p']
          = Except.ok self
        ∧ (∀ c w, unordered_map.find self.encoder c = some w
            ↔ unordered_map.find self.decoder w = some c)
        ∧ unordered_map.size self.encoder
            = ['h', 'e', 'y', ' ', 'p', 'r', 'a', 't', 'a', 'p'].toFinset.card
        ∧ unordered_map.size self.decoder
            = ['h', 'e', 'y', ' ', 'p', 'r', 'a', 't', 'a', 'p'].toFinset.card :=
  ⟨stable_lib_valid, by simp, tables_inverse stable_lib stable_lib_valid _ (by simp)⟩

/-! ## Inputs outside the trained alphabet, truncated inputs, degenerate samples -/

theorem find_subscript_snd (m : unordered_map Char (List Char)) (c k : Char) :
    unordered_map.find (unordered_map.subscript m c []).2 k
      = if k = c then some (code_of m c) else unordered_map.find m k := by
  unfold unordered_map.subscript code_of
  cases h : unordered_map.find m c with
  | some v =>
    by_cases hk : k = c
    · subst hk; simp [h]
    · simp [hk]
  | none =>
    by_cases hk : k = c
    · subst hk; simp [unordered_map.find_assign_self]
    · simp [hk, unordered_map.find_assign_ne _ _ _ _ hk]

theorem find_foldl_encode_step (source : List Char) :
    ∀ (st : List Char × coder) (k : Char),
      unordered_map.find (source.foldl encode_step st).2.encoder k
        = if k ∈ source then some (code_of st.2.encoder k)
          else unordered_map.find st.2.encoder k := by
  induction source with
  | nil => intro st k; simp
  | cons c source ih =>
    intro st k
    simp only [List.foldl_cons]
    rw [ih]
    have h1 : code_of (encode_step st c).2.encoder k = code_of st.2.encoder k := by
      simp only [encode_step]
      exact code_of_subscript_snd _ _ _
    have h2 : unordered_map.find (encode_step st c).2.encoder k
        = if k = c then some (code_of st.2.encoder c) else unordered_map.find st.2.encoder k := by
      simp only [encode_step]
      exact find_subscript_snd _ _ _
    rw [h1, h2]
    by_cases hs : k ∈ source
    · simp [hs]
    · by_cases hk : k = c
      · subst hk; simp [hs]
      · simp [hs, hk]

theorem code_of_eq_nil_of_not_mem (root : node) (sample : List Char)
    (hp : (leaf_list root).Perm (count_frequencies sample)) (c : Char) (hc : c ∉ sample) :
    unordered_map.find (code_list root []) c = none := by
  rw [unordered_map.find_eq_none_iff]
  intro h
  exact hc (List.mem_dedup.1 ((code_list_keys_perm root sample hp).subset h))

theorem decode_loop_append (decoder : unordered_map (List Char) Char) (b s : List Char) :
    ∀ st : List Char × List Char,
      decode_loop decoder (b ++ s) st = decode_loop decoder s (decode_loop decoder b st) := by
  induction b with
  | nil => intro st; simp [decode_loop]
  | cons x b ih =>
    intro st
    obtain ⟨key, out⟩ := st
    simp only [List.cons_append, decode_loop]
    cases unordered_map.find decoder (key ++ [x]) with
    | none => exact ih _
    | some d => exact ih _

theorem decode_loop_unmatched (decoder : unordered_map (List Char) Char) (s : List Char) :
    ∀ (key out : List Char),
      (∀ p, p <+: s → p ≠ [] → unordered_map.find decoder (key ++ p) = none) →
      decode_loop decoder s (key, out) = (key ++ s, out) := by
  induction s with
  | nil => intro key out _; simp [decode_loop]
  | cons x s ih =>
    intro key out h
    have h1 := h [x] ⟨s, rfl⟩ (by simp)
    simp only [decode_loop, h1]
    rw [ih (key ++ [x]) out]
    · simp
    · intro p hp hne
      have := h (x :: p) (by
        obtain ⟨t, rfl⟩ := hp
        exact ⟨t, rfl⟩) (by simp)
      simpa using this

theorem leaf_list_length_pos (n : node) (h : strict_binary n = true) :
    0 < (leaf_list n).length := by
  induction n with
  | null => simp [strict_binary] at h
  | mk d c l r ihl ihr =>
    simp only [strict_binary, Bool.or_eq_true, Bool.and_eq_true] at h
    rcases h with h | h
    · simp [leaf_list, h.1, h.2]
    · have := ihl h.1
      simp only [leaf_list, List.length_append]
      omega

theorem leaf_of_single (n : node) (h : strict_binary n = true)
    (h1 : (leaf_list n).length = 1) : ∃ d c, n = node.mk d c node.null node.null := by
  cases n with
  | null => simp [strict_binary] at h
  | mk d c l r =>
    simp only [strict_binary, Bool.or_eq_true, Bool.and_eq_true] at h
    rcases h with h | h
    · simp only [isNull_eq_true] at h
      exact ⟨d, c, by rw [h.1, h.2]⟩
    · exfalso
      have hl := leaf_list_length_pos l h.1
      have hr := leaf_list_length_pos r h.2
      simp only [leaf_list, List.length_append] at h1
      omega

/-- C6 (as amended). `decode` never fails: when the scan of `b` ends with an
empty candidate and no non-empty prefix of `s` is a key of the decoder table,
the scan of `b ++ s` ends with the unmatched candidate `s`, and `decode`
returns the same output as for `b` alone. -/
theorem truncated_input_dropped (self : coder) (b s : List Char)
    (hb : (decode_loop self.decoder b ([], [])).1 = [])
    (hs : ∀ p, p <+: s → p ≠ [] → unordered_map.find self.decoder p = none) :
    (decode_loop self.decoder (b ++ s) ([], [])).1 = s
      ∧ decode self (b ++ s) = decode self b := by
  have h1 := decode_loop_append self.decoder b s ([], [])
  have h2 : decode_loop self.decoder b ([], [])
      = ([], (decode_loop self.decoder b ([], [])).2) :=
    Prod.ext hb rfl
  have h3 := decode_loop_unmatched self.decoder s [] (decode_loop self.decoder b ([], [])).2
    (by simpa using hs)
  rw [h2, h3] at h1
  simp only [List.nil_append] at h1
  simp [decode, h1]

/-- Witness of C6 (as amended): the coder with codes `c = 0`, `a = 10`,
`b = 11`, the input `"0"` followed by the strict prefix `"1"` of a code. -/
theorem truncated_input_dropped_witness :
    (decode_loop
        (coder_of_root (node.mk '\x00' 3 (node.new 'c' 1)
          (node.mk '\x00' 2 (node.new 'a' 1) (node.new 'b' 1)))).decoder
        ['0'] ([], [])).1 = []
    ∧ (∀ p, p <+: ['1'] → p ≠ [] →
        unordered_map.find
          (coder_of_root (node.mk '\x00' 3 (node.new 'c' 1)
            (node.mk '\x00' 2 (node.new 'a' 1) (node.new 'b' 1)))).decoder p = none)
    ∧ (decode_loop
        (coder_of_root (node.mk '\x00' 3 (node.new 'c' 1)
          (node.mk '\x00' 2 (node.new 'a' 1) (node.new 'b' 1)))).decoder
        (['0'] ++ ['1']) ([], [])).1 = ['1']
    ∧ decode (coder_of_root (node.mk '\x00' 3 (node.new 'c' 1)
          (node.mk '\x00' 2 (node.new 'a' 1) (node.new 'b' 1)))) (['0'] ++ ['1'])
        = decode (coder_of_root (node.mk '\x00' 3 (node.new 'c' 1)
          (node.mk '\x00' 2 (node.new 'a' 1) (node.new 'b' 1)))) ['0'] :=
  have hs : ∀ p, p <+: ['1'] → p ≠ [] →
      unordered_map.find
        (coder_of_root (node.mk '\x00' 3 (node.new 'c' 1)
          (node.mk '\x00' 2 (node.new 'a' 1) (node.new 'b' 1)))).decoder p = none := by
    intro p hp hne
    rcases List.prefix_cons_iff.1 hp with rfl | ⟨t, rfl, ht⟩
    · exact absurd rfl hne
    · rw [List.prefix_nil] at ht
      subst ht
      rfl
  ⟨rfl, hs, truncated_input_dropped _ ['0'] ['1'] rfl hs⟩

/-- Counterexample to C6 as stated: for the coder trained on `"abc"` (codes
`c = 0`, `a = 10`, `b = 11`) the input `"1"`, a strict prefix of the code of
`'a'` that is no code, ends the scan with the non-empty unmatched candidate
`"1"`, and `decode` returns the empty text without any failure; on the input
`"01"` it returns the truncated output `"c"`. -/
theorem malformed_decode_counterexample :
    ∃ self, huffman_coder stable_lib ['a', 'b', 'c'] = Except.ok self
      ∧ unordered_map.find self.encoder 'a' = some ['1', '0']
      ∧ unordered_map.find self.decoder ['1'] = none
      ∧ decode_loop self.decoder ['1'] ([], []) = (['1'], [])
      ∧ decode self ['1'] = []
      ∧ decode_loop self.decoder ['0', '1'] ([], []) = (['1'], ['c'])
      ∧ decode self ['0', '1'] = ['c'] :=
  ⟨_, rfl, rfl, rfl, rfl, rfl, rfl, rfl⟩

theorem count_frequencies_replicate_length (a : Char) (k : Nat) :
    (count_frequencies (List.replicate (k + 1) a)).length = 1 := by
  have h := (keys_count_frequencies_perm (List.replicate (k + 1) a)).length_eq
  have hd : (List.replicate (k + 1) a).dedup = [a] := by
    have h1 : (List.replicate (k + 1) a).dedup.Nodup := List.nodup_dedup _
    have h2 : ∀ x ∈ (List.replicate (k + 1) a).dedup, x = a := by
      intro x hx
      exact List.eq_of_mem_replicate (List.mem_dedup.1 hx)
    have h3 : a ∈ (List.replicate (k + 1) a).dedup :=
      List.mem_dedup.2 (by simp [List.replicate_succ])
    match hl : (List.replicate (k + 1) a).dedup, h1, h2, h3 with
    | [], _, _, h3 => simp at h3
    | [x], _, h2, _ => rw [h2 x (by simp)]
    | x :: y :: r, h1, h2, _ =>
      exfalso
      have hx := h2 x (by simp)
      have hy := h2 y (by simp)
      simp only [List.nodup_cons, List.mem_cons] at h1
      exact h1.1 (Or.inl (hx.trans hy.symm))
  rw [hd] at h
  simpa using h

/-- C8 (what the code does). For a sample with a single distinct character
the constructor returns a coder whose only code is the empty string: `encode`
returns the empty string for every text, and decoding it gives the empty
text, so `decode(encode(text)) = text` fails for every non-empty text. -/
theorem single_symbol_decodes_empty (L : StdLib) (hL : L.Valid) (a : Char) (k : Nat) :
    ∃ self, huffman_coder L (List.replicate (k + 1) a) = Except.ok self
      ∧ ∀ text, (encode self text).1 = []
          ∧ decode (encode self text).2 (encode self text).1 = [] := by
  obtain ⟨root, hc, hs, hp⟩ := huffman_coder_shape L hL (List.replicate (k + 1) a)
    (by simp [List.replicate_succ])
  refine ⟨_, hc, ?_⟩
  have hlen : (leaf_list root).length = 1 :=
    hp.length_eq.trans (count_frequencies_replicate_length a k)
  obtain ⟨d, c, rfl⟩ := leaf_of_single root hs hlen
  have hcl : code_list (node.mk d c node.null node.null) [] = [(d, [])] := by
    simp [code_list, node.isNull]
  have hcode : ∀ x, code_of [(d, ([] : List Char))] x = [] := by
    intro x
    by_cases hx : x = d
    · simp [code_of, unordered_map.find, hx]
    · simp [code_of, unordered_map.find, hx]
  intro text
  have henc : (encode { encoder := code_list (node.mk d c node.null node.null) [],
                        decoder := (code_list (node.mk d c node.null node.null) []).map Prod.swap,
                        root := node.mk d c node.null node.null } text).1 = [] := by
    rw [encode_fst, hcl]
    simp only [List.flatMap_eq_nil_iff]
    intro x _
    exact hcode x
  refine ⟨henc, ?_⟩
  rw [henc]
  rfl

/-- Witness of C8: the sample `"aaaa"` and the text `"aaaa"`. -/
theorem single_symbol_decodes_empty_witness :
    stable_lib.Valid
    ∧ ∃ self, huffman_coder stable_lib ['a', 'a', 'a', 'a'] = Except.ok self
        ∧ (encode self ['a', 'a', 'a', 'a']).1 = []
        ∧ decode (encode self ['a', 'a', 'a', 'a']).2 (encode self ['a', 'a', 'a', 'a']).1 = []
        ∧ decode (encode self ['a', 'a', 'a', 'a']).2 (encode self ['a', 'a', 'a', 'a']).1
            ≠ ['a', 'a', 'a', 'a'] :=
  ⟨stable_lib_valid,
    (single_symbol_decodes_empty stable_lib stable_lib_valid 'a' 3).elim
      (fun self h => ⟨self, h.1, (h.2 _).1, (h.2 _).2, by rw [(h.2 _).2]; simp⟩)⟩

/-- C9 (what the code does). `encode` changes the encoder table when the text
has a character that does not occur in the sample: `encoder[c]` inserts an
entry with the empty string for it, and the table grows. -/
theorem encode_inserts_unknown (L : StdLib) (hL : L.Valid) (sample text : List Char)
    (c : Char) (hne : sample ≠ []) (hc : c ∉ sample) (ht : c ∈ text) :
    ∃ self, huffman_coder L sample = Except.ok self
      ∧ unordered_map.find self.encoder c = none
      ∧ unordered_map.find (encode self text).2.encoder c = some []
      ∧ (encode self text).2.encoder ≠ self.encoder := by
  obtain ⟨root, hcd, hs, hp⟩ := huffman_coder_shape L hL sample hne
  refine ⟨_, hcd, ?_⟩
  have h1 := code_of_eq_nil_of_not_mem root sample hp c hc
  have h2 : unordered_map.find
      (encode { encoder := code_list root [], decoder := (code_list root []).map Prod.swap,
                root := root } text).2.encoder c = some [] := by
    rw [encode_eq, find_foldl_encode_step]
    simp [ht, code_of, h1]
  refine ⟨h1, h2, ?_⟩
  intro h
  rw [h, h1] at h2
  cases h2

/-- Witness of C9: the coder trained on `"ab"` and the text `"abc"`. -/
theorem encode_inserts_unknown_witness :
    stable_lib.Valid ∧ ['a', 'b'] ≠ [] ∧ 'c' ∉ ['a', 'b'] ∧ 'c' ∈ ['a', 'b', 'c']
    ∧ ∃ self, huffman_coder stable_lib ['a', 'b'] = Except.ok self
      ∧ unordered_map.find self.encoder 'c' = none
      ∧ unordered_map.find (encode self ['a', 'b', 'c']).2.encoder 'c' = some []
      ∧ (encode self ['a', 'b', 'c']).2.encoder ≠ self.encoder :=
  ⟨stable_lib_valid, by simp, by decide, by decide,
    encode_inserts_unknown stable_lib stable_lib_valid ['a', 'b'] ['a', 'b', 'c'] 'c'
      (by simp) (by decide) (by decide)⟩

/-! ## The cost of the built tree is the greedy merge cost -/

theorem hcost_cons_cons (a b : Nat) (r : List Nat) :
    hcost (a :: b :: r) = a + b + hcost (List.orderedInsert (· ≤ ·) (a + b) r) := by
  simp [hcost, hcost_fuel, List.orderedInsert_length]

theorem hcost_singleton (a : Nat) : hcost [a] = 0 := rfl

theorem hc_of_sorted (l : List Nat) (h : l.Sorted (· ≤ ·)) : hc (l : Multiset Nat) = hcost l := by
  unfold hc
  congr 1
  exact List.eq_of_perm_of_sorted (Quotient.exact (Multiset.sort_eq _ _))
    (Multiset.sort_sorted _ _) h

theorem hc_singleton (a : Nat) : hc {a} = 0 := by
  have : ({a} : Multiset Nat) = ([a] : List Nat) := rfl
  rw [this, hc_of_sorted [a] (List.sorted_singleton a)]
  rfl

theorem hc_cons_cons (a b : Nat) (R : Multiset Nat) (hab : a ≤ b) (hb : ∀ x ∈ R, b ≤ x) :
    hc (a ::ₘ b ::ₘ R) = a + b + hc ((a + b) ::ₘ R) := by
  have hs : (R.sort (· ≤ ·)).Sorted (· ≤ ·) := Multiset.sort_sorted _ _
  have hmem : ∀ x ∈ R.sort (· ≤ ·), b ≤ x := fun x hx => hb x ((Multiset.mem_sort _).1 hx)
  have h1 : (a ::ₘ b ::ₘ R) = ((a :: b :: R.sort (· ≤ ·) : List Nat) : Multiset Nat) := by
    rw [← Multiset.cons_coe, ← Multiset.cons_coe, Multiset.sort_eq]
  have hs1 : (a :: b :: R.sort (· ≤ ·)).Sorted (· ≤ ·) := by
    refine List.sorted_cons.2 ⟨?_, List.sorted_cons.2 ⟨hmem, hs⟩⟩
    intro x hx
    rcases List.mem_cons.1 hx with rfl | hx
    · exact hab
    · exact hab.trans (hmem x hx)
  have h2 : ((a + b) ::ₘ R)
      = ((List.orderedInsert (· ≤ ·) (a + b) (R.sort (· ≤ ·)) : List Nat) : Multiset Nat) := by
    rw [← Multiset.sort_eq (· ≤ ·) R, Multiset.cons_coe]
    simp only [Multiset.sort_eq]
    rw [← Multiset.sort_eq (· ≤ ·) R]
    exact (Quotient.sound (List.perm_orderedInsert _ _ _)).symm
  rw [h1, hc_of_sorted _ hs1, hcost_cons_cons, h2, hc_of_sorted _ (hs.orderedInsert _ _)]

theorem cost_inv_perm (fm : unordered_map Char Nat) (q q' : List node) (h : q.Perm q')
    (hq : cost_inv fm q) : cost_inv fm q' := by
  obtain ⟨h1, h2, h3⟩ := hq
  refine ⟨shape_inv_perm fm q q' h h1, fun n hn => h2 n (h.symm.subset hn), ?_⟩
  rw [← h3, (h.map icost).sum_eq]
  congr 2
  exact (Quotient.sound (h.map node.cost)).symm

theorem cost_mk (d : Char) (c : Nat) (l r : node) : (node.mk d c l r).cost = c := rfl

theorem cost_inv_step (fm : unordered_map Char Nat) (a b : node) (r : List node)
    (hq : cost_inv fm (a :: b :: r)) (hab : a.cost ≤ b.cost)
    (hbr : ∀ x ∈ r, b.cost ≤ x.cost) :
    cost_inv fm (node.mk '\x00' (a.cost + b.cost) a b :: r) := by
  obtain ⟨h1, h2, h3⟩ := hq
  have ha := strict_binary_ne_null a (h1.1 a (by simp))
  refine ⟨shape_inv_step fm a b r h1, ?_, ?_⟩
  · intro n hn
    rcases List.mem_cons.1 hn with rfl | hn
    · simp [cost_ok, cost_mk, h2 a (by simp), h2 b (by simp)]
    · exact h2 n (by simp [hn])
  · rw [← h3]
    simp only [List.map_cons, List.sum_cons, icost, ha, Bool.false_and, cost_mk,
      ← Multiset.cons_coe]
    rw [hc_cons_cons a.cost b.cost _ hab]
    · simp only [if_false, Bool.false_eq_true]
      omega
    · intro x hx
      simp only [Multiset.mem_coe, List.mem_map] at hx
      obtain ⟨n, hn, rfl⟩ := hx
      exact hbr n hn

theorem cost_inv_init (fm : unordered_map Char Nat) :
    cost_inv fm (fm.map (fun e => node.new e.1 e.2)) := by
  refine ⟨shape_inv_init fm, ?_, ?_⟩
  · intro n hn
    obtain ⟨e, _, rfl⟩ := List.mem_map.1 hn
    simp [node.new, cost_ok, node.isNull]
  · have h1 : (fm.map (fun e => node.new e.1 e.2)).map icost = fm.map (fun _ => 0) := by
      simp [List.map_map, Function.comp_def, node.new, icost, node.isNull]
    have h2 : (fm.map (fun e => node.new e.1 e.2)).map node.cost = fm.map Prod.snd := by
      simp [List.map_map, Function.comp_def, node.new, cost_mk]
    rw [h1, h2]
    simp

theorem weighted_depth (n : node) :
    ∀ (pre : List Char) (len : Char → Nat), strict_binary n = true → cost_ok n = true →
      (∀ e ∈ code_list n pre, len e.1 = e.2.length) →
      ((leaf_list n).map (fun e => e.2 * len e.1)).sum = pre.length * n.cost + icost n := by
  induction n with
  | null => intro pre len h; simp [strict_binary] at h
  | mk d c l r ihl ihr =>
    intro pre len hs hc hlen
    by_cases hl : (l.isNull && r.isNull) = true
    · have := hlen (d, pre) (by simp [code_list, hl])
      simp only at this
      simp only [Bool.and_eq_true, isNull_eq_true] at hl
      obtain ⟨rfl, rfl⟩ := hl
      simp [leaf_list, icost, node.isNull, cost_mk, this, Nat.mul_comm]
    · have hl' : (l.isNull && r.isNull) = false := Bool.eq_false_iff.2 hl
      simp only [strict_binary, hl', Bool.false_or, Bool.and_eq_true] at hs
      simp only [cost_ok, hl', Bool.false_or, Bool.and_eq_true, decide_eq_true_eq] at hc
      have h1 := ihl (pre ++ ['0']) len hs.1 hc.2.1
        (fun e he => hlen e (by simp [code_list, he]))
      have h2 := ihr (pre ++ ['1']) len hs.2 hc.2.2
        (fun e he => hlen e (by simp [code_list, he]))
      simp only [leaf_list, hl', if_false, List.nil_append, List.map_append, List.sum_append,
        h1, h2, icost, cost_mk, List.length_append, List.length_singleton, hc.1,
        Bool.false_eq_true]
      ring

/-- The constructor succeeds on a non-empty sample, and the weighted length of
its code table is the greedy merge cost of the frequencies. -/
theorem huffman_coder_cost (L : StdLib) (hL : L.Valid) (sample : List Char)
    (hne : sample ≠ []) :
    ∃ self, huffman_coder L sample = Except.ok self
      ∧ ((count_frequencies sample).map
          (fun e => e.2 * (code_of self.encoder e.1).length)).sum
        = hc (((count_frequencies sample).map Prod.snd : List Nat) : Multiset Nat) := by
  obtain ⟨root, h1, h2, h3, h4⟩ := huffman_coder_rule L hL sample hne
    (cost_inv (count_frequencies sample)) (cost_inv_perm _)
    (fun a b r h hab hbr => cost_inv_step _ a b r h hab hbr) (cost_inv_init _)
  have hs := h2.1 root (by simp)
  have hp : (leaf_list root).Perm (count_frequencies sample) := by simpa using h2.2
  have hk := code_list_nodup_keys root sample hp
  refine ⟨_, h1, ?_⟩
  rw [coder_of_root_eq root hs ((hp.map Prod.fst).nodup_iff.2
    (nodup_keys_count_frequencies sample))]
  have hw := weighted_depth root [] (fun c => (code_of (code_list root []) c).length) hs
    (h3 root (by simp)) (by
      intro e he
      have := (unordered_map.mem_iff_find_of_nodup _ hk e.1 e.2).1 he
      simp [code_of, this])
  rw [← (hp.map _).sum_eq, hw, ← h4]
  simp [hc_singleton]

theorem count_frequencies_hey_pratap :
    count_frequencies ['h', 'e', 'y', ' ', 'p', 'r', 'a', 't', 'a', 'p']
      = [('h', 1), ('e', 1), ('y', 1), (' ', 1), ('p', 2), ('r', 1), ('a', 2), ('t', 1)] :=
  rfl

theorem hc_hey_pratap :
    hc (([1, 1, 1, 1, 2, 1, 2, 1] : List Nat) : Multiset Nat) = 30 := by
  have h : (([1, 1, 1, 1, 2, 1, 2, 1] : List Nat) : Multiset Nat)
      = (([1, 1, 1, 1, 1, 1, 2, 2] : List Nat) : Multiset Nat) :=
    Quotient.sound (by decide)
  rw [h, hc_of_sorted _ (by decide)]
  rfl

/-- C10. For the coder built from the sample `"hey pratap"`, whatever the
iteration order of the map and the tie-break of the queue, the encoding of
`"hey pratap"` has at most 30 characters (it has exactly 30). -/
theorem hey_pratap_length (L : StdLib) (hL : L.Valid) :
    ∃ self, huffman_coder L ['h', 'e', 'y', ' ', 'p', 'r', 'a', 't', 'a', 'p'] = Except.ok self
      ∧ (encode self ['h', 'e', 'y', ' ', 'p', 'r', 'a', 't', 'a', 'p']).1.length ≤ 30 := by
  obtain ⟨self, h1, h2⟩ := huffman_coder_cost L hL
    ['h', 'e', 'y', ' ', 'p', 'r', 'a', 't', 'a', 'p'] (by simp)
  refine ⟨self, h1, ?_⟩
  rw [count_frequencies_hey_pratap] at h2
  simp only [List.map_cons, List.map_nil, hc_hey_pratap, List.sum_cons, List.sum_nil] at h2
  rw [encode_fst]
  simp only [List.flatMap_cons, List.flatMap_nil, List.length_append, List.length_nil]
  omega

/-- Witness of C10: the library that keeps insertion order and breaks ties
in favour of the element pushed first. -/
theorem hey_pratap_length_witness :
    stable_lib.Valid
    ∧ ∃ self, huffman_coder stable_lib ['h', 'e', 'y', ' ', 'p', 'r', 'a', 't', 'a', 'p']
          = Except.ok self
        ∧ (encode self ['h', 'e', 'y', ' ', 'p', 'r', 'a', 't', 'a', 'p']).1.length ≤ 30 :=
  ⟨stable_lib_valid, hey_pratap_length stable_lib stable_lib_valid⟩

/-! ## No length assignment satisfying the Kraft inequality beats the greedy merge -/

theorem sum_toFinset_eq (sample : List Char) (f : Char → Nat) :
    Finset.sum sample.toFinset (fun c => sample.count c * f c)
      = ((count_frequencies sample).map (fun e => e.2 * f e.1)).sum := by
  have hk := nodup_keys_count_frequencies sample
  have hfin : sample.toFinset = ((count_frequencies sample).map Prod.fst).toFinset := by
    ext c
    simp only [List.mem_toFinset]
    exact (mem_keys_count_frequencies sample c).symm
  rw [hfin, List.sum_toFinset _ hk, List.map_map]
  congr 1
  apply List.map_congr_left
  intro e he
  have := (mem_count_frequencies sample e.1 e.2).1 he
  simp only [Function.comp_apply]
  rw [← this.2]

/-! ## Weighted optimality -/

theorem sum_count_frequencies (sample : List Char) :
    ((count_frequencies sample).map Prod.snd).sum = sample.length := by
  have h := sum_toFinset_eq sample (fun _ => 1)
  simp only [Nat.mul_one] at h
  rw [← h]
  exact List.sum_toFinset_count_eq_length sample

theorem length_count_frequencies (sample : List Char) :
    (count_frequencies sample).length = sample.toFinset.card := by
  have h := (keys_count_frequencies_perm sample).length_eq
  simp only [List.length_map] at h
  rw [h, List.card_toFinset]

theorem tree_inv_perm (fm : unordered_map Char Nat) (q q' : List node) (h : q.Perm q')
    (hq : tree_inv fm q) : tree_inv fm q' :=
  ⟨shape_inv_perm fm q q' h hq.1, fun n hn => hq.2 n (h.symm.subset hn)⟩

theorem tree_inv_step (fm : unordered_map Char Nat) (a b : node) (r : List node)
    (hq : tree_inv fm (a :: b :: r)) (hab : a.cost ≤ b.cost) :
    tree_inv fm (node.mk '\x00' (a.cost + b.cost) a b :: r) := by
  obtain ⟨h1, h2⟩ := hq
  refine ⟨shape_inv_step fm a b r h1, ?_⟩
  intro n hn
  rcases List.mem_cons.1 hn with rfl | hn
  · have ha := h2 a (by simp)
    have hb := h2 b (by simp)
    simp [cost_ok, children_ordered, ha.1, ha.2, hb.1, hb.2, hab]
  · exact h2 n (by simp [hn])

theorem tree_inv_init (fm : unordered_map Char Nat) :
    tree_inv fm (fm.map (fun e => node.new e.1 e.2)) := by
  refine ⟨shape_inv_init fm, ?_⟩
  intro n hn
  obtain ⟨e, _, rfl⟩ := List.mem_map.1 hn
  simp [node.new, cost_ok, children_ordered, node.isNull]

/-- The constructor succeeds on a non-empty sample; its tables are read off a
strictly binary tree over the entries of the frequency map whose inner nodes
store the sums of their children, with the cheaper child on the left. -/
theorem huffman_coder_tree (L : StdLib) (hL : L.Valid) (sample : List Char)
    (hne : sample ≠ []) :
    ∃ root, huffman_coder L sample
        = Except.ok { encoder := code_list root [],
                      decoder := (code_list root []).map Prod.swap,
                      root := root }
      ∧ strict_binary root = true
      ∧ (leaf_list root).Perm (count_frequencies sample)
      ∧ cost_ok root = true
      ∧ children_ordered root = true := by
  obtain ⟨root, h1, h2, h3⟩ := huffman_coder_rule L hL sample hne
    (tree_inv (count_frequencies sample)) (tree_inv_perm _)
    (fun a b r h hab _ => tree_inv_step _ a b r h hab) (tree_inv_init _)
  have hs := h2.1 root (by simp)
  have hp : (leaf_list root).Perm (count_frequencies sample) := by simpa using h2.2
  refine ⟨root, ?_, hs, hp, (h3 root (by simp)).1, (h3 root (by simp)).2⟩
  rw [h1, coder_of_root_eq root hs]
  exact (hp.map Prod.fst).nodup_iff.2 (nodup_keys_count_frequencies sample)

theorem inner_count_succ (n : node) (hs : strict_binary n = true) :
    inner_count n + 1 = (leaf_list n).length := by
  induction n with
  | null => simp [strict_binary] at hs
  | mk d c l r ihl ihr =>
    by_cases hl : (l.isNull && r.isNull) = true
    · simp only [Bool.and_eq_true, isNull_eq_true] at hl
      obtain ⟨rfl, rfl⟩ := hl
      simp [inner_count, leaf_list, node.isNull]
    · have hl' : (l.isNull && r.isNull) = false := Bool.eq_false_iff.2 hl
      simp only [strict_binary, hl', Bool.false_or, Bool.and_eq_true] at hs
      have h1 := ihl hs.1
      have h2 := ihr hs.2
      simp only [inner_count, leaf_list, hl', if_false, List.nil_append, List.length_append,
        Bool.false_eq_true]
      omega

theorem code_length_le (n : node) :
    ∀ (pre : List Char), strict_binary n = true → ∀ e ∈ code_list n pre,
      e.2.length + 1 ≤ pre.length + (leaf_list n).length := by
  induction n with
  | null => intro pre hs; simp [strict_binary] at hs
  | mk d c l r ihl ihr =>
    intro pre hs e he
    by_cases hl : (l.isNull && r.isNull) = true
    · simp only [Bool.and_eq_true, isNull_eq_true] at hl
      obtain ⟨rfl, rfl⟩ := hl
      simp only [code_list, node.isNull, Bool.and_self, if_true, List.append_nil,
        List.mem_singleton] at he
      subst he
      simp [leaf_list, node.isNull]
    · have hl' : (l.isNull && r.isNull) = false := Bool.eq_false_iff.2 hl
      simp only [strict_binary, hl', Bool.false_or, Bool.and_eq_true] at hs
      have hpl := leaf_list_length_pos l hs.1
      have hpr := leaf_list_length_pos r hs.2
      simp only [code_list, hl', if_false, List.nil_append, List.mem_append,
        Bool.false_eq_true] at he
      simp only [leaf_list, hl', if_false, List.nil_append, List.length_append,
        Bool.false_eq_true]
      rcases he with he | he
      · have := ihl (pre ++ ['0']) hs.1 e he
        simp only [List.length_append, List.length_singleton] at this
        omega
      · have := ihr (pre ++ ['1']) hs.2 e he
        simp only [List.length_append, List.length_singleton] at this
        omega

theorem code_length_pos (n : node) (pre : List Char) (hs : strict_binary n = true)
    (h2 : 2 ≤ (leaf_list n).length) :
    ∀ e ∈ code_list n pre, pre.length + 1 ≤ e.2.length := by
  intro e he
  cases n with
  | null => simp [strict_binary] at hs
  | mk d c l r =>
    by_cases hl : (l.isNull && r.isNull) = true
    · simp only [Bool.and_eq_true, isNull_eq_true] at hl
      obtain ⟨rfl, rfl⟩ := hl
      simp [leaf_list, node.isNull] at h2
    · have hl' : (l.isNull && r.isNull) = false := Bool.eq_false_iff.2 hl
      simp only [code_list, hl', if_false, List.nil_append, List.mem_append,
        Bool.false_eq_true] at he
      rcases he with he | he
      · have := (prefix_of_mem_code_list l _ e he).length_le
        simpa using this
      · have := (prefix_of_mem_code_list r _ e he).length_le
        simpa using this

/-- C12. Code length bounds: for a sample with `n ≥ 2` distinct characters
every character of the sample has an entry in the built encoder table, and
every entry has length at least 1 and at most `n - 1`. -/
theorem code_length_bounds (L : StdLib) (hL : L.Valid) (sample : List Char)
    (h2 : 2 ≤ sample.toFinset.card) :
    ∃ self, huffman_coder L sample = Except.ok self
      ∧ (∀ c ∈ sample, ∃ w, unordered_map.find self.encoder c = some w)
      ∧ ∀ c w, unordered_map.find self.encoder c = some w →
          1 ≤ w.length ∧ w.length ≤ sample.toFinset.card - 1 := by
  have hne : sample ≠ [] := by
    intro h
    rw [h] at h2
    simp at h2
  obtain ⟨root, hc, hs, hp⟩ := huffman_coder_shape L hL sample hne
  have hlen : (leaf_list root).length = sample.toFinset.card :=
    hp.length_eq.trans (length_count_frequencies sample)
  refine ⟨_, hc, ?_, ?_⟩
  · intro c hcs
    obtain ⟨w, _, hw⟩ := exists_code_of_mem root sample hp c hcs
    exact ⟨w, hw⟩
  · intro c w hw
    have hmem := (unordered_map.mem_iff_find_of_nodup _
      (code_list_nodup_keys root sample hp) c w).2 hw
    have h3 := code_length_le root [] hs (c, w) hmem
    have h4 := code_length_pos root [] hs (by omega) (c, w) hmem
    simp only [List.length_nil] at h3 h4
    omega

/-- Witness of C12: the sample `"hey pratap"` with its eight distinct
characters. -/
theorem code_length_bounds_witness :
    stable_lib.Valid
    ∧ 2 ≤ ['h', 'e', 'y', ' ', 'p', 'r', 'a', 't', 'a', 'p'].toFinset.card
    ∧ ∃ self, huffman_coder stable_lib ['h', 'e', 'y', ' ', 'p', 'r', 'a', 't', 'a', 'p']
          = Except.ok self
        ∧ (∀ c ∈ ['h', 'e', 'y', ' ', 'p', 'r', 'a', 't', 'a', 'p'],
            ∃ w, unordered_map.find self.encoder c = some w)
        ∧ ∀ c w, unordered_map.find self.encoder c = some w →
            1 ≤ w.length
            ∧ w.length ≤ ['h', 'e', 'y', ' ', 'p', 'r', 'a', 't', 'a', 'p'].toFinset.card - 1 :=
  ⟨stable_lib_valid, by decide,
    code_length_bounds stable_lib stable_lib_valid _ (by decide)⟩

theorem decode_loop_out (decoder : unordered_map (List Char) Char) (b : List Char) :
    ∀ (key out : List Char),
      decode_loop decoder b (key, out)
        = ((decode_loop decoder b (key, [])).1, out ++ (decode_loop decoder b (key, [])).2) := by
  induction b with
  | nil => intro key out; simp [decode_loop]
  | cons x b ih =>
    intro key out
    simp only [decode_loop]
    cases unordered_map.find decoder (key ++ [x]) with
    | none => exact ih _ _
    | some d =>
      show decode_loop decoder b ([], out ++ [d])
        = ((decode_loop decoder b ([], [] ++ [d])).1,
            out ++ (decode_loop decoder b ([], [] ++ [d])).2)
      rw [ih [] (out ++ [d]), ih [] ([] ++ [d])]
      simp

theorem decode_loop_split (decoder : unordered_map (List Char) Char) (code : Char → List Char)
    (hinv : ∀ w c, unordered_map.find decoder w = some c → code c = w) (b : List Char) :
    ∀ (key out : List Char),
      (decode_loop decoder b (key, out)).2.flatMap code ++ (decode_loop decoder b (key, out)).1
        = out.flatMap code ++ (key ++ b) := by
  induction b with
  | nil => intro key out; simp [decode_loop]
  | cons x b ih =>
    intro key out
    simp only [decode_loop]
    cases h : unordered_map.find decoder (key ++ [x]) with
    | none =>
      simp only []
      rw [ih]
      simp
    | some d =>
      simp only []
      rw [ih]
      simp [List.flatMap_append, hinv _ _ h]

theorem decoder_matches_codes (root : node) (sample : List Char)
    (hs : strict_binary root = true) (hp : (leaf_list root).Perm (count_frequencies sample))
    (h2 : ∃ a ∈ sample, ∃ b ∈ sample, a ≠ b) :
    ∀ c ∈ sample, code_of (code_list root []) c ≠ []
      ∧ unordered_map.find ((code_list root []).map Prod.swap) (code_of (code_list root []) c)
          = some c
      ∧ ∀ p, p <+: code_of (code_list root []) c → p ≠ code_of (code_list root []) c → p ≠ []
          → unordered_map.find ((code_list root []).map Prod.swap) p = none := by
  have hk1 := code_list_nodup_keys root sample hp
  have hk2 := code_list_nodup_codes root [] hs
  intro c hcs
  obtain ⟨w, hmem, hfind⟩ := exists_code_of_mem root sample hp c hcs
  have hw : code_of (code_list root []) c = w := by simp [code_of, hfind]
  rw [hw]
  refine ⟨?_, (find_swap_iff _ hk1 hk2 c w).1 hfind, ?_⟩
  · intro hnil
    obtain ⟨a, ha, b, hb, hab⟩ := h2
    have hex : ∃ d ∈ sample, d ≠ c := by
      by_cases hac : a = c
      · exact ⟨b, hb, fun h => hab (hac.trans h.symm)⟩
      · exact ⟨a, ha, hac⟩
    obtain ⟨d, hd, hdc⟩ := hex
    obtain ⟨wd, hmemd, _⟩ := exists_code_of_mem root sample hp d hd
    have hinc := code_list_incomparable root [] hs (c, w) (d, wd) hmem hmemd
      (by intro h; exact hdc (congrArg Prod.fst h).symm)
    apply hinc.1
    simp only [hnil]
    exact List.nil_prefix
  · intro p hpre hpw _
    cases hfp : unordered_map.find ((code_list root []).map Prod.swap) p with
    | none => rfl
    | some c' =>
      exfalso
      have h1 := (find_swap_iff _ hk1 hk2 c' p).2 hfp
      have hmem' := (unordered_map.mem_iff_find_of_nodup _ hk1 _ _).2 h1
      have hinc := code_list_incomparable root [] hs (c', p) (c, w) hmem' hmem
        (by intro h; exact hpw (congrArg Prod.snd h))
      exact hinc.1 hpre

/-- C13. Encode is in-order concatenation: for the coder built from a
non-empty sample, the encoding of a one-character text is the entry of the
character in the encoder table, and `encode (s ++ t) = encode s ++ encode t`
for all texts `s` and `t` (in particular those over the sample's characters). -/
theorem encode_concatenation (L : StdLib) (hL : L.Valid) (sample : List Char)
    (hne : sample ≠ []) (s t : List Char) :
    ∃ self, huffman_coder L sample = Except.ok self
      ∧ (∀ c ∈ sample, ∃ w, unordered_map.find self.encoder c = some w
          ∧ (encode self [c]).1 = w)
      ∧ (encode self (s ++ t)).1 = (encode self s).1 ++ (encode self t).1 := by
  obtain ⟨root, hc, _, hp⟩ := huffman_coder_shape L hL sample hne
  refine ⟨_, hc, ?_, ?_⟩
  · intro c hcs
    obtain ⟨w, _, hw⟩ := exists_code_of_mem root sample hp c hcs
    refine ⟨w, hw, ?_⟩
    rw [encode_fst]
    simp [code_of, hw]
  · simp only [encode_fst, List.flatMap_append]

/-- Witness of C13: the coder trained on `"hey pratap"`, the texts `"hey"`
and `"pat"`. -/
theorem encode_concatenation_witness :
    stable_lib.Valid
    ∧ ['h', 'e', 'y', ' ', 'p', 'r', 'a', 't', 'a', 'p'] ≠ []
    ∧ ∃ self, huffman_coder stable_lib ['h', 'e', 'y', ' ', 'p', 'r', 'a', 't', 'a', 'p']
          = Except.ok self
        ∧ (∀ c ∈ ['h', 'e', 'y', ' ', 'p', 'r', 'a', 't', 'a', 'p'],
            ∃ w, unordered_map.find self.encoder c = some w ∧ (encode self [c]).1 = w)
        ∧ (encode self (['h', 'e', 'y'] ++ ['p', 'a', 't'])).1
            = (encode self ['h', 'e', 'y']).1 ++ (encode self ['p', 'a', 't']).1 :=
  ⟨stable_lib_valid, by simp,
    encode_concatenation stable_lib stable_lib_valid _ (by simp) ['h', 'e', 'y'] ['p', 'a', 't']⟩

/-- C19. Decode is compositional on valid prefixes: for a sample with at
least two distinct characters, a text `t` over the characters of the sample
and any string `b`, `decode (encode t ++ b) = t ++ decode b`. -/
theorem decode_compositional (L : StdLib) (hL : L.Valid) (sample text b : List Char)
    (h2 : ∃ x ∈ sample, ∃ y ∈ sample, x ≠ y) (ht : ∀ c ∈ text, c ∈ sample) :
    ∃ self, huffman_coder L sample = Except.ok self
      ∧ decode self ((encode self text).1 ++ b) = text ++ decode self b := by
  have hne : sample ≠ [] := by
    obtain ⟨a, ha, _⟩ := h2
    exact List.ne_nil_of_mem ha
  obtain ⟨root, hc, hs, hp⟩ := huffman_coder_shape L hL sample hne
  refine ⟨_, hc, ?_⟩
  have hcode := decoder_matches_codes root sample hs hp h2
  have hloop := decode_loop_flatMap ((code_list root []).map Prod.swap)
    (code_of (code_list root [])) text (fun c hct => hcode c (ht c hct)) b []
  simp only [decode, encode_fst, hloop, List.nil_append]
  rw [decode_loop_out]

/-- Witness of C19: the coder trained on `"hey pratap"`, the text `"hey"`
and the string `"1"`. -/
theorem decode_compositional_witness :
    stable_lib.Valid
    ∧ (∃ x ∈ ['h', 'e', 'y', ' ', 'p', 'r', 'a', 't', 'a', 'p'],
        ∃ y ∈ ['h', 'e', 'y', ' ', 'p', 'r', 'a', 't', 'a', 'p'], x ≠ y)
    ∧ (∀ c ∈ ['h', 'e', 'y'], c ∈ ['h', 'e', 'y', ' ', 'p', 'r', 'a', 't', 'a', 'p'])
    ∧ ∃ self, huffman_coder stable_lib ['h', 'e', 'y', ' ', 'p', 'r', 'a', 't', 'a', 'p']
          = Except.ok self
        ∧ decode self ((encode self ['h', 'e', 'y']).1 ++ ['1'])
            = ['h', 'e', 'y'] ++ decode self ['1'] :=
  ⟨stable_lib_valid, ⟨'h', by decide, 'e', by decide, by decide⟩, by decide,
    decode_compositional stable_lib stable_lib_valid _ ['h', 'e', 'y'] ['1']
      ⟨'h', by decide, 'e', by decide, by decide⟩ (by decide)⟩

/-- C20. Reverse round trip: for the coder built from a non-empty sample and
any input string `b`, `encode (decode b)` is a prefix of `b`, and it is `b`
exactly when the candidate key is empty at the end of the scan of `decode`. -/
theorem encode_decode_prefix (L : StdLib) (hL : L.Valid) (sample b : List Char)
    (hne : sample ≠ []) :
    ∃ self, huffman_coder L sample = Except.ok self
      ∧ (encode self (decode self b)).1 <+: b
      ∧ ((encode self (decode self b)).1 = b
          ↔ (decode_loop self.decoder b ([], [])).1 = []) := by
  obtain ⟨root, hc, hs, hp⟩ := huffman_coder_shape L hL sample hne
  refine ⟨_, hc, ?_⟩
  have hk1 := code_list_nodup_keys root sample hp
  have hk2 := code_list_nodup_codes root [] hs
  have hinv : ∀ w c, unordered_map.find ((code_list root []).map Prod.swap) w = some c →
      code_of (code_list root []) c = w := by
    intro w c h
    have := (find_swap_iff _ hk1 hk2 c w).2 h
    simp [code_of, this]
  have hsplit := decode_loop_split ((code_list root []).map Prod.swap)
    (code_of (code_list root [])) hinv b [] []
  simp only [List.flatMap_nil, List.nil_append] at hsplit
  simp only [encode_fst, decode]
  constructor
  · exact ⟨_, hsplit⟩
  · constructor
    · intro h
      rw [h] at hsplit
      exact List.append_right_eq_self.1 hsplit
    · intro h
      rw [h, List.append_nil] at hsplit
      exact hsplit

/-- Witness of C20: the coder trained on `"hey pratap"` and the input
`"0001"`. -/
theorem encode_decode_prefix_witness :
    stable_lib.Valid
    ∧ ['h', 'e', 'y', ' ', 'p', 'r', 'a', 't', 'a', 'p'] ≠ []
    ∧ ∃ self, huffman_coder stable_lib ['h', 'e', 'y', ' ', 'p', 'r', 'a', 't', 'a', 'p']
          = Except.ok self
        ∧ (encode self (decode self ['0', '0', '0', '1'])).1 <+: ['0', '0', '0', '1']
        ∧ ((encode self (decode self ['0', '0', '0', '1'])).1 = ['0', '0', '0', '1']
            ↔ (decode_loop self.decoder ['0', '0', '0', '1'] ([], [])).1 = []) :=
  ⟨stable_lib_valid, by simp,
    encode_decode_prefix stable_lib stable_lib_valid _ ['0', '0', '0', '1'] (by simp)⟩

/-! ## Iterations of the merge loop -/

/-- One iteration of the merge loop on a queue with more than one element:
the two elements removed, and the queue the loop continues with. -/
theorem merge_loop_step (L : StdLib) (hL : L.Valid) (q : List node) (hq : 1 < q.length) :
    ∃ first h1 second h2,
      L.pop q = some (first, h1) ∧ L.pop h1 = some (second, h2)
      ∧ (first :: h1).Perm q ∧ (second :: h2).Perm h1
      ∧ (∀ x ∈ q, first.cost ≤ x.cost) ∧ (∀ x ∈ h1, second.cost ≤ x.cost)
      ∧ (L.push (node.mk '\x00' (first.cost + second.cost) first second) h2).length + 1
          = q.length
      ∧ ∀ fuel, merge_loop L (fuel + 1) q
          = merge_loop L fuel
              (L.push (node.mk '\x00' (first.cost + second.cost) first second) h2) := by
  have hne : q ≠ [] := by
    intro h; rw [h] at hq; simp at hq
  obtain ⟨first, h1, hpop1⟩ := hL.pop_some q hne
  have hp1 := hL.pop_perm _ _ _ hpop1
  have hl1 := hp1.length_eq
  simp only [List.length_cons] at hl1
  have hne1 : h1 ≠ [] := by
    intro h; subst h; simp at hl1; omega
  obtain ⟨second, h2, hpop2⟩ := hL.pop_some h1 hne1
  have hp2 := hL.pop_perm _ _ _ hpop2
  have hl2 := hp2.length_eq
  simp only [List.length_cons] at hl2
  have hpush := (hL.push_perm (node.mk '\x00' (first.cost + second.cost) first second)
    h2).length_eq
  simp only [List.length_cons] at hpush
  refine ⟨first, h1, second, h2, hpop1, hpop2, hp1, hp2, ?_, ?_, by omega, ?_⟩
  · intro x hx
    rw [← compare_eq_false]
    exact hL.pop_top _ _ _ hpop1 x hx
  · intro x hx
    rw [← compare_eq_false]
    exact hL.pop_top _ _ _ hpop2 x hx
  · intro fuel
    rw [merge_loop]
    simp only [gt_iff_lt, hq, if_true, hpop1, hpop2]

theorem merge_loop_done (L : StdLib) (q : List node) (hq : q.length ≤ 1) (fuel : Nat) :
    merge_loop L fuel q = Except.ok q := by
  have h : ¬ q.length > 1 := by omega
  cases fuel with
  | zero => rw [merge_loop]; simp only [h, if_false]
  | succ fuel => rw [merge_loop]; simp only [h, if_false]

theorem merge_loop_fuel_succ (L : StdLib) (hL : L.Valid) :
    ∀ (fuel : Nat) (q : List node), q.length ≤ fuel + 1 →
      merge_loop L (fuel + 1) q = merge_loop L fuel q := by
  intro fuel
  induction fuel with
  | zero =>
    intro q hq
    rw [merge_loop_done L q (by omega), merge_loop_done L q (by omega)]
  | succ fuel ih =>
    intro q hq
    by_cases h1 : 1 < q.length
    · obtain ⟨first, h1q, second, h2q, _, _, _, _, _, _, hlen, hstep⟩ :=
        merge_loop_step L hL q h1
      rw [hstep (fuel + 1), hstep fuel]
      exact ih _ (by omega)
    · rw [merge_loop_done L q (by omega), merge_loop_done L q (by omega)]

theorem merge_loop_fuel_add (L : StdLib) (hL : L.Valid) (fuel : Nat) (q : List node)
    (hq : q.length ≤ fuel + 1) :
    ∀ k, merge_loop L (fuel + k) q = merge_loop L fuel q := by
  intro k
  induction k with
  | zero => rfl
  | succ k ih =>
    rw [← Nat.add_assoc, merge_loop_fuel_succ L hL (fuel + k) q (by omega), ih]

theorem merge_loop_out_of_fuel (L : StdLib) (hL : L.Valid) :
    ∀ (fuel : Nat) (q : List node), fuel + 1 < q.length →
      merge_loop L fuel q = Except.error Fault.out_of_fuel := by
  intro fuel
  induction fuel with
  | zero =>
    intro q hq
    have h : q.length > 1 := by omega
    rw [merge_loop]
    simp only [h, if_true]
  | succ fuel ih =>
    intro q hq
    obtain ⟨first, h1q, second, h2q, _, _, _, _, _, _, hlen, hstep⟩ :=
      merge_loop_step L hL q (by omega)
    rw [hstep fuel]
    exact ih _ (by omega)

/-- C17. Merge loop termination: for a non-empty sample with `n` distinct
characters the queue starts with `n` nodes, and the loop ends with a single
node `root` after exactly `n - 1` iterations: every bound of at least `n - 1`
iterations gives the result `[root]`, every smaller bound is exceeded.  The
constructor stores `root`, which has `n` leaves and `n - 1` inner nodes, and
is a leaf when `n = 1`. -/
theorem merge_loop_terminates (L : StdLib) (hL : L.Valid) (sample : List Char)
    (hne : sample ≠ []) :
    1 ≤ sample.toFinset.card
      ∧ (fill_heap L (count_frequencies sample)).length = sample.toFinset.card
      ∧ ∃ root,
          (∀ fuel, sample.toFinset.card - 1 ≤ fuel →
            merge_loop L fuel (fill_heap L (count_frequencies sample)) = Except.ok [root])
          ∧ (∀ fuel, fuel < sample.toFinset.card - 1 →
              merge_loop L fuel (fill_heap L (count_frequencies sample))
                = Except.error Fault.out_of_fuel)
          ∧ huffman_coder L sample = Except.ok (coder_of_root root)
          ∧ (leaf_list root).length = sample.toFinset.card
          ∧ inner_count root = sample.toFinset.card - 1
          ∧ (sample.toFinset.card = 1 → ∃ c, root = node.new c sample.length) := by
  have hfill := fill_heap_perm L hL (count_frequencies sample)
  have hlen0 : (fill_heap L (count_frequencies sample)).length = sample.toFinset.card := by
    rw [hfill.length_eq, List.length_map, length_count_frequencies]
  have hpos : 1 ≤ sample.toFinset.card := by
    cases sample with
    | nil => exact absurd rfl hne
    | cons c s =>
      have : c ∈ (c :: s).toFinset := by simp
      exact Finset.card_pos.2 ⟨c, this⟩
  have hq : fill_heap L (count_frequencies sample) ≠ [] := by
    intro h
    rw [h] at hlen0
    simp at hlen0
    omega
  obtain ⟨t, ht, hI⟩ := merge_loop_rule L hL (tree_inv (count_frequencies sample))
    (tree_inv_perm _) (fun a b r h hab _ => tree_inv_step _ a b r h hab)
    (sample.toFinset.card - 1) _ hq (by omega)
    (tree_inv_perm _ _ _ hfill.symm (tree_inv_init _))
  have hs : strict_binary t = true := hI.1.1 t (by simp)
  have hp : (leaf_list t).Perm (count_frequencies sample) := by simpa using hI.1.2
  have hleaves : (leaf_list t).length = sample.toFinset.card :=
    hp.length_eq.trans (length_count_frequencies sample)
  have hge : ∀ fuel, sample.toFinset.card - 1 ≤ fuel →
      merge_loop L fuel (fill_heap L (count_frequencies sample)) = Except.ok [t] := by
    intro fuel hf
    have := merge_loop_fuel_add L hL (sample.toFinset.card - 1)
      (fill_heap L (count_frequencies sample)) (by omega)
      (fuel - (sample.toFinset.card - 1))
    rw [Nat.add_sub_cancel' hf] at this
    rw [this, ht]
  refine ⟨hpos, hlen0, t, hge, ?_, ?_, hleaves, ?_, ?_⟩
  · intro fuel hf
    exact merge_loop_out_of_fuel L hL fuel _ (by omega)
  · have h1 := hge (fill_heap L (count_frequencies sample)).length (by omega)
    simp only [huffman_coder, h1, StdLib.top, pop_singleton L hL t, coder_of_root,
      Option.map_some']
  · have := inner_count_succ t hs
    omega
  · intro h1
    obtain ⟨d, c, rfl⟩ := leaf_of_single t hs (by omega)
    refine ⟨d, ?_⟩
    have hsum := (hp.map Prod.snd).sum_eq
    rw [sum_count_frequencies] at hsum
    simp only [leaf_list, node.isNull, Bool.and_self, if_true, List.append_nil, List.map_cons,
      List.map_nil, List.sum_cons, List.sum_nil, Nat.add_zero] at hsum
    rw [node.new, hsum]

/-- Witness of C17: the sample `"hey pratap"` (eight distinct characters,
seven iterations). -/
theorem merge_loop_terminates_witness :
    stable_lib.Valid
    ∧ ['h', 'e', 'y', ' ', 'p', 'r', 'a', 't', 'a', 'p'] ≠ []
    ∧ 1 ≤ ['h', 'e', 'y', ' ', 'p', 'r', 'a', 't', 'a', 'p'].toFinset.card
    ∧ (fill_heap stable_lib
          (count_frequencies ['h', 'e', 'y', ' ', 'p', 'r', 'a', 't', 'a', 'p'])).length
        = ['h', 'e', 'y', ' ', 'p', 'r', 'a', 't', 'a', 'p'].toFinset.card
    ∧ ∃ root,
        (∀ fuel, ['h', 'e', 'y', ' ', 'p', 'r', 'a', 't', 'a', 'p'].toFinset.card - 1 ≤ fuel →
          merge_loop stable_lib fuel
            (fill_heap stable_lib
              (count_frequencies ['h', 'e', 'y', ' ', 'p', 'r', 'a', 't', 'a', 'p']))
            = Except.ok [root])
        ∧ (∀ fuel, fuel < ['h', 'e', 'y', ' ', 'p', 'r', 'a', 't', 'a', 'p'].toFinset.card - 1 →
            merge_loop stable_lib fuel
              (fill_heap stable_lib
                (count_frequencies ['h', 'e', 'y', ' ', 'p', 'r', 'a', 't', 'a', 'p']))
              = Except.error Fault.out_of_fuel)
        ∧ huffman_coder stable_lib ['h', 'e', 'y', ' ', 'p', 'r', 'a', 't', 'a', 'p']
            = Except.ok (coder_of_root root)
        ∧ (leaf_list root).length
            = ['h', 'e', 'y', ' ', 'p', 'r', 'a', 't', 'a', 'p'].toFinset.card
        ∧ inner_count root = ['h', 'e', 'y', ' ', 'p', 'r', 'a', 't', 'a', 'p'].toFinset.card - 1
        ∧ (['h', 'e', 'y', ' ', 'p', 'r', 'a', 't', 'a', 'p'].toFinset.card = 1 →
            ∃ c, root = node.new c ['h', 'e', 'y', ' ', 'p', 'r', 'a', 't', 'a', 'p'].length) :=
  ⟨stable_lib_valid, by simp, merge_loop_terminates stable_lib stable_lib_valid _ (by simp)⟩

/-- C18. Greedy merge order: in every iteration of the merge loop the first
node removed has the least cost of the queue and the second the least cost of
the rest, the loop continues with their parent, whose left child is the first
and whose right child is the second; hence in the tree built from a
non-empty sample the left child of every inner node costs at most as much as
the right child. -/
theorem greedy_merge_order (L : StdLib) (hL : L.Valid) :
    (∀ q : List node, 1 < q.length →
      ∃ first h1 second h2,
        L.pop q = some (first, h1) ∧ L.pop h1 = some (second, h2)
        ∧ (first :: h1).Perm q ∧ (second :: h2).Perm h1
        ∧ (∀ x ∈ q, first.cost ≤ x.cost) ∧ (∀ x ∈ h1, second.cost ≤ x.cost)
        ∧ ∀ fuel, merge_loop L (fuel + 1) q
            = merge_loop L fuel
                (L.push (node.mk '\x00' (first.cost + second.cost) first second) h2))
      ∧ ∀ sample : List Char, sample ≠ [] →
          ∃ self, huffman_coder L sample = Except.ok self
            ∧ children_ordered self.root = true := by
  constructor
  · intro q hq
    obtain ⟨first, h1, second, h2, e1, e2, e3, e4, e5, e6, _, e8⟩ := merge_loop_step L hL q hq
    exact ⟨first, h1, second, h2, e1, e2, e3, e4, e5, e6, e8⟩
  · intro sample hne
    obtain ⟨root, hc, _, _, _, ho⟩ := huffman_coder_tree L hL sample hne
    exact ⟨_, hc, ho⟩

/-- Witness of C18: the library that breaks ties in favour of the element
pushed first. -/
theorem greedy_merge_order_witness :
    stable_lib.Valid
    ∧ (∀ q : List node, 1 < q.length →
        ∃ first h1 second h2,
          stable_lib.pop q = some (first, h1) ∧ stable_lib.pop h1 = some (second, h2)
          ∧ (first :: h1).Perm q ∧ (second :: h2).Perm h1
          ∧ (∀ x ∈ q, first.cost ≤ x.cost) ∧ (∀ x ∈ h1, second.cost ≤ x.cost)
          ∧ ∀ fuel, merge_loop stable_lib (fuel + 1) q
              = merge_loop stable_lib fuel
                  (stable_lib.push
                    (node.mk '\x00' (first.cost + second.cost) first second) h2))
    ∧ ∀ sample : List Char, sample ≠ [] →
        ∃ self, huffman_coder stable_lib sample = Except.ok self
          ∧ children_ordered self.root = true :=
  ⟨stable_lib_valid, greedy_merge_order stable_lib stable_lib_valid⟩

/-! ## The tables depend on the library -/

theorem reverse_lib_valid : reverse_lib.Valid where
  iterate_perm := fun m => List.reverse_perm m
  push_perm := stable_lib_valid.push_perm
  pop_nil := stable_lib_valid.pop_nil
  pop_some := stable_lib_valid.pop_some
  pop_perm := stable_lib_valid.pop_perm
  pop_top := stable_lib_valid.pop_top

/-- The fixed library matters for the code table: on the sample `"ab"` the
two valid libraries `stable_lib` and `reverse_lib` give different codes to
`'a'`, while both tables have the same code lengths. -/
theorem tables_depend_on_library :
    ∃ c1 c2, huffman_coder stable_lib ['a', 'b'] = Except.ok c1
      ∧ huffman_coder reverse_lib ['a', 'b'] = Except.ok c2
      ∧ unordered_map.find c1.encoder 'a' = some ['0']
      ∧ unordered_map.find c2.encoder 'a' = some ['1'] :=
  ⟨_, _, rfl, rfl, rfl, rfl⟩

end Huffman
